import Mathlib

/-!
Verification development for the rclip incremental image-index and search core
(`rclip/main.py`, with the `db`/`model` modules modelled from the spec where
the repository does not ship them).

Paths, filenames and queries are modelled as `List Char`; decoded images and
embedding vectors are opaque payloads (`List Char` / `List Int`).  Machine
floats appear in the source only as values compared for exact equality or
carried opaquely, so they are modelled by `Int`.
-/

set_option autoImplicit false

/-- Filesystem paths / filenames / query strings, as character lists. -/
abbrev Pth := List Char

/-- Decoded image payload (opaque to the core; `PIL.Image` in the source). -/
abbrev Img := List Char

/-- Embedding vector payload (opaque to the core; float32 buffer in the source). -/
abbrev Vec := List Int

/-- `ImageMeta` from `main.py`: the filesystem observation for one file
(`modified_at`, `size`).  Only exact equality of the fields is ever used. -/
structure ImageMeta where
  modified_at : Int
  size : Int
deriving DecidableEq, Repr

/-- Modelled from the spec: one persisted row of the vector store
(`path (unique key), modified_at, size_bytes, vector, deleted`), §3 and §6 of
the spec; the `db` module is not part of the provided sources. -/
structure DBImage where
  filepath : Pth
  modified_at : Int
  size : Int
  vector : Vec
  deleted : Bool
deriving DecidableEq, Repr

/-- `db.NewImage` as used by `_index_files`: the candidate row for an upsert. -/
structure NewImage where
  filepath : Pth
  modified_at : Int
  size : Int
  vector : Vec
deriving DecidableEq, Repr

/-- The external world of one scan/search: filesystem metadata reads
(`os.path.getmtime`/`getsize`, `none` = raised OSError), image decoding
(`Image.open`, `none` = raised decode error), and the embedding model
(`compute_image_features`, `none` = the whole batch call raised;
`rank` = `compute_similarities_to_text`, already similarity-descending per
spec §6).  The model is an external collaborator per spec §1. -/
structure Env where
  getMeta : Pth → Option ImageMeta
  openImage : Pth → Option Img
  embed : List Img → Option (List Vec)
  rank : List Vec → Pth → List (Int × Nat)
  excludeDirs : List Pth

/-! ### The two regexes of `RClip`

`IMAGE_REGEX = re.compile(r'^.+\.(jpe?g|png)$', re.I)` and
`self._exclude_dir_regex = re.compile(f'^.+\\/({escaped names})(\\/.+)?$')`.
Python `.` does not match a newline, and an unanchored-by-MULTILINE `$`
matches at the very end or just before one final newline; the definitions
below reproduce exactly that. -/

/-- Case-folding used by the `re.I` flag of `IMAGE_REGEX`. -/
def lowerStr (s : List Char) : List Char := s.map Char.toLower

/-- The alternation `jpe?g|png` of `IMAGE_REGEX`, expanded. -/
def IMAGE_EXTS : List (List Char) := [("jpg").toList, ("jpeg").toList, ("png").toList]

/-- Does `s` fully match `\.(jpe?g|png)$` (case-insensitively)?  `$` also
matches just before one final newline. -/
def image_ext_tail (s : List Char) : Bool :=
  IMAGE_EXTS.any fun e =>
    lowerStr s == '.' :: e || lowerStr s == '.' :: (e ++ ['\n'])

/-- Scan for a split `s = p ++ t` with `p` a nonempty newline-free prefix
(the `^.+` part, one character already consumed per call) and `t` matching
`\.(jpe?g|png)$`. -/
def image_tail_search : List Char → Bool
  | [] => false
  | c :: rest => (c != '\n') && (image_ext_tail rest || image_tail_search rest)

/-- `IMAGE_REGEX.match(name)` of `main.py`: `^.+\.(jpe?g|png)$` with `re.I`. -/
def image_regex_match (s : List Char) : Bool := image_tail_search s

/-- Continuation of `.+` up to `$`: the remaining characters may be empty,
further non-newline characters, or one final newline. -/
def dotPlusTail : List Char → Bool
  | [] => true
  | [_] => true
  | c :: rest => (c != '\n') && dotPlusTail rest

/-- Does `s` fully match `.+$`: at least one non-newline character, then
optionally one final newline. -/
def dotPlusThenEnd : List Char → Bool
  | [] => false
  | c :: rest => (c != '\n') && dotPlusTail rest

/-- Does the remainder after an excluded name fully match `(\/.+)?$`. -/
def exclude_suffix_ok : List Char → Bool
  | [] => true
  | c :: rest => ((c == '\n') && rest.isEmpty) || ((c == '/') && dotPlusThenEnd rest)

/-- Does `s` start with one of the (literal, `re.escape`d) excluded names,
followed by a remainder matching `(\/.+)?$`. -/
def nameTail (names : List Pth) (s : List Char) : Bool :=
  names.any fun n => n.isPrefixOf s && exclude_suffix_ok (s.drop n.length)

/-- Scan for a slash at position ≥ 1 of the original string followed by an
excluded name; the characters consumed so far form the `^.+` part and must be
newline-free. -/
def slashNameSearch (names : List Pth) : List Char → Bool
  | [] => false
  | c :: rest =>
    (c != '\n') && (((c == '/') && nameTail names rest) || slashNameSearch names rest)

/-- `self._exclude_dir_regex.match(s)` of `main.py`:
`^.+\/(name1|name2|...)(\/.+)?$` over the configured names. -/
def exclude_dir_match (names : List Pth) (s : List Char) : Bool :=
  match s with
  | [] => false
  | c :: rest => (c != '\n') && slashNameSearch names rest

/-- `RClip.EXCLUDE_DIRS_DEFAULT = ['@eaDir', 'node_modules', '.git']`. -/
def EXCLUDE_DIRS_DEFAULT : List Pth :=
  [("@eaDir").toList, ("node_modules").toList, (".git").toList]

/-- `exclude_dirs or self.EXCLUDE_DIRS_DEFAULT` in `RClip.__init__`: Python
`or` falls back to the default both for `None` and for an empty list. -/
def effective_exclude_dirs (exclude_dirs : Option (List Pth)) : List Pth :=
  match exclude_dirs with
  | none => EXCLUDE_DIRS_DEFAULT
  | some l => if l = [] then EXCLUDE_DIRS_DEFAULT else l

/-- Split a path into its `/`-separated segments (claim-side notion used by
the spec's "exact path segment" wording). -/
def pathSegs : List Char → List (List Char)
  | [] => [[]]
  | c :: rest =>
    let r := pathSegs rest
    if c = '/' then [] :: r
    else
      match r with
      | [] => [[c]]
      | seg :: segs => (c :: seg) :: segs

/-- `os.path.join(root, file)` for the cases arising in `ensure_index`. -/
def pathJoin (root file : Pth) : Pth :=
  match file with
  | '/' :: _ => file
  | _ =>
    match root with
    | [] => file
    | _ => if root.getLast? = some '/' then root ++ file else root ++ '/' :: file

/-! ### The vector store (`db` module, not in the provided sources) -/

/-- Modelled from the spec: "path is under `dir_path`" for the store's
directory-scoped operations (spec §4.3); a path is under `dir` when it
extends `dir` past a separator. -/
def isUnder (dir fp : Pth) : Bool := (dir ++ ['/']).isPrefixOf fp

/-- Modelled from the spec: `flag_all_under` / `flag_images_in_a_dir_as_deleted`
(spec §4.3) — mark every record under `dir` as `deleted = true`. -/
def flag_images_in_a_dir_as_deleted : List DBImage → Pth → List DBImage
  | [], _ => []
  | r :: rest, dir =>
    (if isUnder dir r.filepath then { r with deleted := true } else r)
      :: flag_images_in_a_dir_as_deleted rest dir

/-- Modelled from the spec: `get(path)` (spec §4.3) — the record for an exact
path, if any. -/
def get_image : List DBImage → Pth → Option DBImage
  | [], _ => none
  | r :: rest, fp => if r.filepath = fp then some r else get_image rest fp

/-- Modelled from the spec: `unflag` / `remove_deleted_flag` (spec §4.3) —
clear `deleted` on an exact path, all other fields retained. -/
def remove_deleted_flag : List DBImage → Pth → List DBImage
  | [], _ => []
  | r :: rest, fp =>
    (if r.filepath = fp then { r with deleted := false } else r)
      :: remove_deleted_flag rest fp

/-- Modelled from the spec: `upsert(record, commit)` (spec §4.3) — insert or
replace the record for `record.path`, clearing `deleted`.  Durability
(`commit`) is not modelled: commits do not change the logical store state. -/
def upsert_image (db : List DBImage) (n : NewImage) : List DBImage :=
  if db.any (fun r => r.filepath == n.filepath) then
    db.map fun r =>
      if r.filepath = n.filepath then
        ⟨n.filepath, n.modified_at, n.size, n.vector, false⟩
      else r
  else db ++ [⟨n.filepath, n.modified_at, n.size, n.vector, false⟩]

/-- Modelled from the spec: `get_all_under` / `get_image_vectors_by_dir_path`
(spec §4.3) — `(path, vector)` for the non-deleted records under `dir`. -/
def get_image_vectors_by_dir_path (db : List DBImage) (dir : Pth) : List (Pth × Vec) :=
  (db.filter fun r => isUnder dir r.filepath && !r.deleted).map fun r => (r.filepath, r.vector)

/-! ### Indexing (`RClip._index_files` and `RClip.ensure_index`) -/

/-- `is_image_meta_equal(image, meta)` from `main.py`: compare the record
against the observation on exactly the keys of `meta`
(`modified_at`, `size`), with plain equality. -/
def is_image_meta_equal (image : DBImage) (meta : ImageMeta) : Bool :=
  decide (image.modified_at = meta.modified_at ∧ image.size = meta.size)

/-- The decode loop of `_index_files`: open each path, dropping the ones that
raise (both the silent `UnidentifiedImageError` branch and the logged generic
branch just skip the file).  Returns `(images, filtered_paths)`. -/
def decodePass (env : Env) : List Pth → List Img × List Pth
  | [] => ([], [])
  | p :: rest =>
    let r := decodePass env rest
    match env.openImage p with
    | some img => (img :: r.1, p :: r.2)
    | none => r

/-- The upsert loop of `_index_files` over `zip(filtered_paths, metas, features)`. -/
def upsertMany (db : List DBImage) : List ((Pth × ImageMeta) × Vec) → List DBImage
  | [] => db
  | ((p, m), v) :: rest => upsertMany (upsert_image db ⟨p, m.modified_at, m.size, v⟩) rest

/-- `RClip._index_files(filepaths, metas)`: decode, one batch model call, and
on success upsert along `zip(filtered_paths, metas, features)` — note the
source zips the *filtered* paths against the *unfiltered* metas.  Returns the
new store and the images passed to the model call. -/
def indexFiles (env : Env) (db : List DBImage) (filepaths : List Pth)
    (metas : List ImageMeta) : List DBImage × List Img :=
  let dp := decodePass env filepaths
  match env.embed dp.1 with
  | none => (db, dp.1)
  | some features => (upsertMany db ((dp.2.zip metas).zip features), dp.1)

/-- `RClip.BATCH_SIZE`. -/
def BATCH_SIZE : Nat := 8

/-- The mutable state of the `ensure_index` walk: the store, the processed
counter (used only for the periodic no-op commit), the pending batch with its
parallel metas list, and — as pure observation of the external interface —
the arguments of every model call made so far. -/
structure ScanState where
  db : List DBImage
  images_processed : Nat
  batch : List Pth
  metas : List ImageMeta
  calls : List (List Img)
deriving Repr

/-- Flush the pending batch through `_index_files` and reset it. -/
def flushBatch (env : Env) (st : ScanState) : ScanState :=
  let r := indexFiles env st.db st.batch st.metas
  { st with db := r.1, batch := [], metas := [], calls := st.calls ++ [r.2] }

/-- Append a stale file to the batch; flush when `BATCH_SIZE` is reached. -/
def enqueueFile (env : Env) (st : ScanState) (fp : Pth) (meta : ImageMeta) : ScanState :=
  let st := { st with batch := st.batch ++ [fp], metas := st.metas ++ [meta] }
  if BATCH_SIZE ≤ st.batch.length then flushBatch env st else st

/-- The per-file body of the `ensure_index` walk: look up the record, read the
filesystem metadata (a raised error skips the file), bump the counter (the
periodic commit is a logical no-op), then either clear the deleted flag
(record present and metadata equal) or enqueue the file as stale. -/
def processFile (env : Env) (st : ScanState) (fp : Pth) : ScanState :=
  let image := get_image st.db fp
  match env.getMeta fp with
  | none => st
  | some meta =>
    let st := { st with images_processed := st.images_processed + 1 }
    match image with
    | some rec =>
      if is_image_meta_equal rec meta then
        { st with db := remove_deleted_flag st.db fp }
      else enqueueFile env st fp meta
    | none => enqueueFile env st fp meta

/-- One `os.walk` entry of `ensure_index`: skip roots matching the exclusion
regex, filter filenames through `IMAGE_REGEX`, and process each file. -/
def scanStep (env : Env) (st : ScanState) (entry : Pth × List Pth) : ScanState :=
  if exclude_dir_match env.excludeDirs entry.1 then st
  else
    let filtered := entry.2.filter image_regex_match
    (filtered.map (pathJoin entry.1)).foldl (processFile env) st

/-- The trailing `if len(batch) != 0: self._index_files(batch, metas)`. -/
def finishScan (env : Env) (st : ScanState) : ScanState :=
  if st.batch ≠ [] then flushBatch env st else st

/-- `RClip.ensure_index(directory)`.  `walk` is the sequence of
`(root, files)` pairs yielded by `os.walk(directory)` (directory names are
irrelevant to the body).  Returns the final store and the list of model-call
arguments. -/
def ensure_index (env : Env) (dir : Pth) (walk : List (Pth × List Pth))
    (db : List DBImage) : List DBImage × List (List Img) :=
  let db0 := flag_images_in_a_dir_as_deleted db dir
  let st := walk.foldl (scanStep env) ⟨db0, 0, [], [], []⟩
  let st := finishScan env st
  (st.db, st.calls)

/-- The files a given walk entry contributes to the scan. -/
def filesOfRoot (names : List Pth) (root : Pth) (files : List Pth) : List Pth :=
  if exclude_dir_match names root then []
  else (files.filter image_regex_match).map (pathJoin root)

/-- All files observed (walked under a non-excluded root, with a media
filename) by an `ensure_index` pass, in processing order. -/
def walkFiles (names : List Pth) (walk : List (Pth × List Pth)) : List Pth :=
  walk.foldr (fun e acc => filesOfRoot names e.1 e.2 ++ acc) []

/-! ### Search (`RClip.search` and `RClip._get_features`) -/

/-- `RClip.SearchResult`. -/
structure SearchResult where
  filepath : Pth
  score : Int
deriving DecidableEq, Repr

/-- `RClip._get_features(directory)`: parallel arrays of the non-deleted
paths under the directory and their vectors. -/
def get_features (db : List DBImage) (dir : Pth) : List Pth × List Vec :=
  let rows := get_image_vectors_by_dir_path db dir
  (rows.map Prod.fst, rows.map Prod.snd)

/-- `RClip.search(query, directory, top_k)`: rank by the model, filter out
results whose path matches the exclusion regex, take the first `top_k`.
The source indexes `filepaths[idx]`; the model contract (spec §6) keeps every
returned row index in range, and the model is totalised here with `getD`. -/
def search (env : Env) (db : List DBImage) (query : Pth) (dir : Pth)
    (top_k : Nat) : List SearchResult :=
  let fps := (get_features db dir).1
  let feats := (get_features db dir).2
  let sorted := env.rank feats query
  let filtered :=
    sorted.filter fun sim => !(exclude_dir_match env.excludeDirs (fps.getD sim.2 []))
  let top := filtered.take top_k
  top.map fun th => ⟨fps.getD th.2 [], th.1⟩

/-- The survivors of `search`'s exclusion filter, in model order: the ranked
pairs whose looked-up path does not match the exclusion regex. -/
def searchFiltered (env : Env) (db : List DBImage) (q dir : Pth) : List (Int × Nat) :=
  (env.rank (get_features db dir).2 q).filter fun sim =>
    !(exclude_dir_match env.excludeDirs ((get_features db dir).1.getD sim.2 []))

/-- The `(filepath, score)` view `search` applies to a ranked pair. -/
def searchView (db : List DBImage) (dir : Pth) (th : Int × Nat) : SearchResult :=
  ⟨(get_features db dir).1.getD th.2 [], th.1⟩

/-! ### Concrete scenarios used to settle the claims -/

/-- Example directory scanned in the concrete scenarios. -/
def dirD : Pth := ("/d").toList

def aName : Pth := ("a.png").toList

def bName : Pth := ("b.png").toList

def aPath : Pth := ("/d/a.png").toList

def bPath : Pth := ("/d/b.png").toList

/-- Environment in which `a.png` raises on decode while everything else
succeeds; the model returns one vector `[7]` per decoded image. -/
def envAB : Env where
  getMeta fp := if fp = aPath then some ⟨1, 11⟩ else if fp = bPath then some ⟨2, 22⟩ else none
  openImage fp := if fp = aPath then none else some fp
  embed imgs := some (imgs.map fun _ => [7])
  rank _ _ := []
  excludeDirs := EXCLUDE_DIRS_DEFAULT

def walkAB : List (Pth × List Pth) := [(dirD, [aName, bName])]

/-- `f0.png` … `f8.png`: nine stale files, filling one full batch plus one. -/
def fFile (i : Nat) : Pth := 'f' :: Nat.toDigits 10 i ++ (".png").toList

def fPath (i : Nat) : Pth := pathJoin dirD (fFile i)

def walkF : List (Pth × List Pth) := [(dirD, (List.range 9).map fFile)]

/-- Environment whose batch model call fails exactly when the batch contains
the decoded image of `f0.png`. -/
def envFail : Env where
  getMeta _ := some ⟨1, 1⟩
  openImage fp := some fp
  embed imgs := if fPath 0 ∈ imgs then none else some (imgs.map fun _ => [5])
  rank _ _ := []
  excludeDirs := EXCLUDE_DIRS_DEFAULT

/-- Fully successful environment over the same files. -/
def envOk : Env where
  getMeta _ := some ⟨1, 1⟩
  openImage fp := some fp
  embed imgs := some (imgs.map fun _ => [5])
  rank _ _ := []
  excludeDirs := EXCLUDE_DIRS_DEFAULT

def dbF0 : List DBImage :=
  [⟨fPath 0, 0, 0, [9], false⟩, ⟨fPath 1, 0, 0, [9], false⟩]

def dbF1 : List DBImage :=
  [⟨fPath 0, 0, 0, [9], true⟩, ⟨fPath 1, 0, 0, [9], true⟩, ⟨fPath 8, 1, 1, [5], false⟩]

def dbF2 : List DBImage :=
  [⟨fPath 0, 1, 1, [5], false⟩, ⟨fPath 1, 1, 1, [5], false⟩, ⟨fPath 8, 1, 1, [5], false⟩,
   ⟨fPath 2, 1, 1, [5], false⟩, ⟨fPath 3, 1, 1, [5], false⟩, ⟨fPath 4, 1, 1, [5], false⟩,
   ⟨fPath 5, 1, 1, [5], false⟩, ⟨fPath 6, 1, 1, [5], false⟩, ⟨fPath 7, 1, 1, [5], false⟩]

/-- Environment in which every filesystem metadata read raises. -/
def envMetaFail : Env where
  getMeta _ := none
  openImage fp := some fp
  embed imgs := some (imgs.map fun _ => [3])
  rank _ _ := []
  excludeDirs := EXCLUDE_DIRS_DEFAULT

def dbA : List DBImage := [⟨aPath, 5, 6, [1], false⟩]

def walkA : List (Pth × List Pth) := [(dirD, [aName])]

def pA : Pth := ("/d/A.png").toList

def pB : Pth := ("/d/B.png").toList

def pC : Pth := ("/d/C.png").toList

def db3 : List DBImage :=
  [⟨pA, 0, 0, [1], false⟩, ⟨pB, 0, 0, [2], false⟩, ⟨pC, 0, 0, [3], false⟩]

def qq : Pth := ("cat").toList

/-- Environment whose text-similarity ranking for the three stored vectors is
`C : 0.95, A : 0.90, B : 0.70` (scores scaled by 100), already descending. -/
def envRank : Env where
  getMeta _ := none
  openImage _ := none
  embed _ := none
  rank feats _ := if feats = [[1], [2], [3]] then [(95, 2), (90, 0), (70, 1)] else []
  excludeDirs := EXCLUDE_DIRS_DEFAULT

/-- Environment whose ranking returns one pair per row (the model contract of
spec paragraph 6), used for the empty-scope claim. -/
def envLen : Env where
  getMeta _ := none
  openImage _ := none
  embed _ := none
  rank feats _ := feats.map fun _ => ((0 : Int), 0)
  excludeDirs := EXCLUDE_DIRS_DEFAULT

def dbDel : List DBImage := [⟨aPath, 0, 0, [1], true⟩]

/-- The media-filter acceptance condition exactly as the claim words it:
at least one character before a final dot followed case-insensitively by
`jpg`, `jpeg` or `png`. -/
def claimMediaAccept (s : List Char) : Bool :=
  IMAGE_EXTS.any fun e =>
    ('.' :: e).isSuffixOf (lowerStr s) && decide (e.length + 1 < s.length)

/-! ### Store lemmas -/

/-- The store keeps one record per path (spec §3: `path` is globally unique). -/
def UniqueDB (db : List DBImage) : Prop := (db.map DBImage.filepath).Nodup

theorem get_image_mem {db : List DBImage} {fp : Pth} {r : DBImage}
    (h : get_image db fp = some r) : r ∈ db ∧ r.filepath = fp := by
  induction db with
  | nil => simp [get_image] at h
  | cons a rest ih =>
    rw [get_image] at h
    split at h
    · rename_i ha
      cases h
      exact ⟨List.mem_cons_self _ _, ha⟩
    · rcases ih h with ⟨h1, h2⟩
      exact ⟨List.mem_cons_of_mem _ h1, h2⟩

theorem get_image_of_mem {db : List DBImage} {r : DBImage}
    (hu : UniqueDB db) (hr : r ∈ db) : get_image db r.filepath = some r := by
  induction db with
  | nil => simp at hr
  | cons a rest ih =>
    rw [get_image]
    rcases List.mem_cons.1 hr with h | h
    · subst h; simp
    · have ha : a.filepath ≠ r.filepath := by
        intro he
        have : r.filepath ∈ rest.map DBImage.filepath := List.mem_map_of_mem _ h
        rw [← he] at this
        exact (List.nodup_cons.1 hu).1 this
      simp only [if_neg ha]
      exact ih (List.nodup_cons.1 hu).2 h

theorem get_image_none {db : List DBImage} {fp : Pth}
    (h : ∀ r ∈ db, r.filepath ≠ fp) : get_image db fp = none := by
  induction db with
  | nil => rfl
  | cons a rest ih =>
    rw [get_image, if_neg (h a (List.mem_cons_self _ _))]
    exact ih fun r hr => h r (List.mem_cons_of_mem _ hr)

theorem filepaths_flag (db : List DBImage) (dir : Pth) :
    (flag_images_in_a_dir_as_deleted db dir).map DBImage.filepath
      = db.map DBImage.filepath := by
  induction db with
  | nil => rfl
  | cons a rest ih =>
    rw [flag_images_in_a_dir_as_deleted]
    simp only [List.map_cons, ih]
    split <;> rfl

theorem get_image_flag (db : List DBImage) (dir fp : Pth) :
    get_image (flag_images_in_a_dir_as_deleted db dir) fp
      = (get_image db fp).map
          (fun r => if isUnder dir r.filepath then { r with deleted := true } else r) := by
  induction db with
  | nil => rfl
  | cons a rest ih =>
    rw [flag_images_in_a_dir_as_deleted, get_image, get_image]
    by_cases ha : a.filepath = fp
    · simp only [ha]
      split <;> simp_all
    · split <;> simp_all [get_image]

theorem filepaths_unflag (db : List DBImage) (fp : Pth) :
    (remove_deleted_flag db fp).map DBImage.filepath = db.map DBImage.filepath := by
  induction db with
  | nil => rfl
  | cons a rest ih =>
    rw [remove_deleted_flag]
    simp only [List.map_cons, ih]
    split <;> rfl

theorem get_image_unflag (db : List DBImage) (fp fp' : Pth) :
    get_image (remove_deleted_flag db fp) fp'
      = (get_image db fp').map
          (fun r => if r.filepath = fp then { r with deleted := false } else r) := by
  induction db with
  | nil => rfl
  | cons a rest ih =>
    rw [remove_deleted_flag, get_image, get_image]
    by_cases ha : a.filepath = fp'
    · simp only [ha]
      split <;> simp_all
    · split <;> simp_all [get_image]

theorem get_image_unflag_ne (db : List DBImage) {fp fp' : Pth} (h : fp' ≠ fp) :
    get_image (remove_deleted_flag db fp) fp' = get_image db fp' := by
  rw [get_image_unflag]
  cases hg : get_image db fp' with
  | none => rfl
  | some r =>
    have := (get_image_mem hg).2
    simp [this, h]

theorem unique_flag {db : List DBImage} (dir : Pth) (hu : UniqueDB db) :
    UniqueDB (flag_images_in_a_dir_as_deleted db dir) := by
  unfold UniqueDB
  rw [filepaths_flag]; exact hu

theorem unique_unflag {db : List DBImage} (fp : Pth) (hu : UniqueDB db) :
    UniqueDB (remove_deleted_flag db fp) := by
  unfold UniqueDB
  rw [filepaths_unflag]; exact hu

theorem any_filepath_iff (db : List DBImage) (fp : Pth) :
    db.any (fun r => r.filepath == fp) = true ↔ ∃ r ∈ db, r.filepath = fp := by
  rw [List.any_eq_true]
  constructor
  · rintro ⟨r, hr, he⟩
    exact ⟨r, hr, by simpa using he⟩
  · rintro ⟨r, hr, he⟩
    exact ⟨r, hr, by simpa using he⟩

theorem get_image_append (db1 db2 : List DBImage) (fp : Pth) :
    get_image (db1 ++ db2) fp
      = match get_image db1 fp with
        | some r => some r
        | none => get_image db2 fp := by
  induction db1 with
  | nil => rfl
  | cons a rest ih =>
    rw [List.cons_append, get_image, get_image]
    split <;> simp_all

theorem get_image_upsert_self (db : List DBImage) (n : NewImage) :
    get_image (upsert_image db n) n.filepath
      = some ⟨n.filepath, n.modified_at, n.size, n.vector, false⟩ := by
  rw [upsert_image]
  split
  · rename_i hany
    rcases (any_filepath_iff db n.filepath).1 hany with ⟨r0, hr0, he0⟩
    clear hany
    induction db with
    | nil => simp at hr0
    | cons a rest ih =>
      rw [List.map_cons, get_image]
      by_cases ha : a.filepath = n.filepath
      · simp [ha]
      · simp only [if_neg ha]
        rcases List.mem_cons.1 hr0 with h | h
        · subst h; exact absurd he0 ha
        · exact ih h
  · rename_i hany
    rw [get_image_append]
    have hnone : get_image db n.filepath = none := by
      apply get_image_none
      intro r hr he
      exact hany ((any_filepath_iff db n.filepath).2 ⟨r, hr, he⟩)
    rw [hnone]
    simp [get_image]

theorem get_image_map (db : List DBImage) (f : DBImage → DBImage) (fp : Pth)
    (hf : ∀ r, (f r).filepath = r.filepath) :
    get_image (db.map f) fp = (get_image db fp).map f := by
  induction db with
  | nil => rfl
  | cons a rest ih =>
    rw [List.map_cons, get_image, get_image, hf]
    split <;> simp_all

theorem get_image_upsert_ne (db : List DBImage) (n : NewImage) {fp : Pth}
    (h : fp ≠ n.filepath) :
    get_image (upsert_image db n) fp = get_image db fp := by
  rw [upsert_image]
  split
  · rw [get_image_map]
    · cases hg : get_image db fp with
      | none => rfl
      | some r =>
        have hfp := (get_image_mem hg).2
        have : ¬ r.filepath = n.filepath := by rw [hfp]; exact h
        simp [this]
    · intro r
      split <;> simp_all
  · rw [get_image_append]
    cases hg : get_image db fp with
    | some r => rfl
    | none => simp [get_image, h.symm]

theorem filepaths_upsert_any (db : List DBImage) (n : NewImage)
    (hany : db.any (fun r => r.filepath == n.filepath) = true) :
    (upsert_image db n).map DBImage.filepath = db.map DBImage.filepath := by
  rw [upsert_image, if_pos hany]
  rw [List.map_map]
  apply List.map_congr_left
  intro r _
  simp only [Function.comp]
  split <;> simp_all

theorem unique_upsert {db : List DBImage} (n : NewImage) (hu : UniqueDB db) :
    UniqueDB (upsert_image db n) := by
  unfold UniqueDB
  rw [upsert_image]
  split
  · rename_i hany
    have := filepaths_upsert_any db n hany
    rw [upsert_image, if_pos hany] at this
    rw [this]; exact hu
  · rename_i hany
    rw [List.map_append]
    simp only [List.map_cons, List.map_nil]
    rw [List.nodup_append]
    refine ⟨hu, List.nodup_singleton _, ?_⟩
    intro x hx hx1
    simp at hx1
    subst hx1
    rcases List.mem_map.1 hx with ⟨r, hr, he⟩
    exact hany ((any_filepath_iff db n.filepath).2 ⟨r, hr, he⟩)

theorem get_image_upsertMany_notmem (db : List DBImage)
    (l : List ((Pth × ImageMeta) × Vec)) {fp : Pth}
    (h : ∀ x ∈ l, x.1.1 ≠ fp) :
    get_image (upsertMany db l) fp = get_image db fp := by
  induction l generalizing db with
  | nil => rfl
  | cons a rest ih =>
    obtain ⟨⟨p, m⟩, v⟩ := a
    rw [upsertMany, ih _ (fun x hx => h x (List.mem_cons_of_mem _ hx))]
    exact get_image_upsert_ne db _ fun he =>
      h _ (List.mem_cons_self _ _) (by simpa using he.symm)

theorem get_image_upsertMany_mem (db : List DBImage)
    (l : List ((Pth × ImageMeta) × Vec)) {fp : Pth} {m : ImageMeta} {v : Vec}
    (hnd : (l.map fun x => x.1.1).Nodup) (hmem : ((fp, m), v) ∈ l) :
    get_image (upsertMany db l) fp = some ⟨fp, m.modified_at, m.size, v, false⟩ := by
  induction l generalizing db with
  | nil => simp at hmem
  | cons a rest ih =>
    obtain ⟨⟨p, m0⟩, v0⟩ := a
    rcases List.mem_cons.1 hmem with h | h
    · cases h
      rw [upsertMany]
      rw [get_image_upsertMany_notmem]
      · exact get_image_upsert_self db _
      · intro x hx he
        apply (List.nodup_cons.1 hnd).1
        have hmm : x.1.1 ∈ rest.map fun y => y.1.1 := List.mem_map.2 ⟨x, hx, rfl⟩
        rwa [he] at hmm
    · rw [upsertMany]
      exact ih _ (List.nodup_cons.1 hnd).2 h

theorem unique_upsertMany {db : List DBImage}
    (l : List ((Pth × ImageMeta) × Vec)) (hu : UniqueDB db) :
    UniqueDB (upsertMany db l) := by
  induction l generalizing db with
  | nil => exact hu
  | cons a rest ih =>
    obtain ⟨⟨p, m⟩, v⟩ := a
    rw [upsertMany]
    exact ih (unique_upsert _ hu)

theorem decodePass_sub (env : Env) (l : List Pth) :
    ∀ p ∈ (decodePass env l).2, p ∈ l := by
  induction l with
  | nil => simp [decodePass]
  | cons a rest ih =>
    intro p hp
    rw [decodePass] at hp
    cases h : env.openImage a with
    | some i =>
      rw [h] at hp
      rcases List.mem_cons.1 hp with h1 | h1
      · subst h1; exact List.mem_cons_self _ _
      · exact List.mem_cons_of_mem _ (ih p h1)
    | none =>
      rw [h] at hp
      exact List.mem_cons_of_mem _ (ih p hp)

theorem decodePass_all (env : Env) (l : List Pth)
    (h : ∀ p ∈ l, ∃ i, env.openImage p = some i) :
    (decodePass env l).2 = l ∧ (decodePass env l).1.length = l.length := by
  induction l with
  | nil => simp [decodePass]
  | cons a rest ih =>
    rcases h a (List.mem_cons_self _ _) with ⟨i, hi⟩
    have ihr := ih fun p hp => h p (List.mem_cons_of_mem _ hp)
    rw [decodePass, hi]
    simp [ihr.1, ihr.2]

theorem decodePass_drop (env : Env) (l1 l2 : List Pth) {fp : Pth}
    (h : env.openImage fp = none) :
    decodePass env (l1 ++ fp :: l2) = decodePass env (l1 ++ l2) := by
  induction l1 with
  | nil => simp [decodePass, h]
  | cons a rest ih => simp [decodePass, ih]

theorem zip3_fst_sublist {α β γ : Type} (l1 : List α) (l2 : List β) (l3 : List γ) :
    List.Sublist (((l1.zip l2).zip l3).map fun x => x.1.1) l1 := by
  induction l1 generalizing l2 l3 with
  | nil => simp
  | cons a rest ih =>
    cases l2 with
    | nil => simp
    | cons b l2' =>
      cases l3 with
      | nil => simp
      | cons c l3' =>
        simp only [List.zip_cons_cons, List.map_cons]
        exact List.Sublist.cons₂ a (ih l2' l3')

theorem zip3_mem {α : Type} (l1 : List Pth) (mfun : Pth → α) (l3 : List Vec)
    (hlen : l3.length = l1.length) :
    ∀ fp ∈ l1, ∃ v, ((fp, mfun fp), v) ∈ (l1.zip (l1.map mfun)).zip l3 := by
  induction l1 generalizing l3 with
  | nil => simp
  | cons a rest ih =>
    cases l3 with
    | nil => simp at hlen
    | cons c l3' =>
      intro fp hfp
      rcases List.mem_cons.1 hfp with h | h
      · subst h
        exact ⟨c, List.mem_cons_self _ _⟩
      · rcases ih l3' (by simpa using hlen) fp h with ⟨v, hv⟩
        exact ⟨v, List.mem_cons_of_mem _ hv⟩

theorem zip3_fst_mem {α β γ : Type} {l1 : List α} {l2 : List β} {l3 : List γ}
    {x : (α × β) × γ} (h : x ∈ (l1.zip l2).zip l3) : x.1.1 ∈ l1 := by
  have h1 := List.of_mem_zip h
  have h2 := List.of_mem_zip h1.1
  exact h2.1

theorem indexFiles_embed_none (env : Env) (db : List DBImage)
    (fps : List Pth) (ms : List ImageMeta)
    (h : env.embed (decodePass env fps).1 = none) :
    indexFiles env db fps ms = (db, (decodePass env fps).1) := by
  rw [indexFiles]
  simp [h]

theorem indexFiles_untouched (env : Env) (db : List DBImage)
    (fps : List Pth) (ms : List ImageMeta) {fp : Pth}
    (h : fp ∉ fps) :
    get_image (indexFiles env db fps ms).1 fp = get_image db fp := by
  rw [indexFiles]
  cases he : env.embed (decodePass env fps).1 with
  | none => rfl
  | some vs =>
    simp only
    apply get_image_upsertMany_notmem
    intro x hx hxe
    exact h (by
      rw [← hxe]
      exact decodePass_sub env fps _ (zip3_fst_mem hx))

theorem indexFiles_unique (env : Env) {db : List DBImage}
    (fps : List Pth) (ms : List ImageMeta) (hu : UniqueDB db) :
    UniqueDB (indexFiles env db fps ms).1 := by
  rw [indexFiles]
  cases he : env.embed (decodePass env fps).1 with
  | none => exact hu
  | some vs => exact unique_upsertMany _ hu

theorem indexFiles_success_mem (env : Env) (db : List DBImage)
    (fps : List Pth) (mfun : Pth → ImageMeta)
    (hnd : fps.Nodup)
    (hdec : ∀ p ∈ fps, ∃ i, env.openImage p = some i)
    (hemb : ∀ imgs, ∃ vs, env.embed imgs = some vs ∧ vs.length = imgs.length) :
    ∀ fp ∈ fps, ∃ v,
      get_image (indexFiles env db fps (fps.map mfun)).1 fp
        = some ⟨fp, (mfun fp).modified_at, (mfun fp).size, v, false⟩ := by
  intro fp hfp
  obtain ⟨hpaths, hlen⟩ := decodePass_all env fps hdec
  rcases hemb (decodePass env fps).1 with ⟨vs, hvs, hvslen⟩
  rw [indexFiles, hvs]
  simp only
  have hlen' : vs.length = fps.length := by rw [hvslen, hlen]
  rcases zip3_mem fps mfun vs hlen' fp hfp with ⟨v, hv⟩
  refine ⟨v, ?_⟩
  rw [hpaths]
  apply get_image_upsertMany_mem
  · exact List.Nodup.sublist (zip3_fst_sublist fps (fps.map mfun) vs) hnd
  · exact hv

/-! ### Scan structure lemmas -/

theorem walkFiles_cons (names : List Pth) (e : Pth × List Pth)
    (w : List (Pth × List Pth)) :
    walkFiles names (e :: w) = filesOfRoot names e.1 e.2 ++ walkFiles names w := rfl

theorem scanStep_eq (env : Env) (st : ScanState) (e : Pth × List Pth) :
    scanStep env st e
      = (filesOfRoot env.excludeDirs e.1 e.2).foldl (processFile env) st := by
  rw [scanStep, filesOfRoot]
  split
  · rfl
  · rfl

theorem walk_foldl_eq (env : Env) (walk : List (Pth × List Pth)) :
    ∀ st, walk.foldl (scanStep env) st
      = (walkFiles env.excludeDirs walk).foldl (processFile env) st := by
  induction walk with
  | nil => intro st; rfl
  | cons e rest ih =>
    intro st
    rw [List.foldl_cons, ih, walkFiles_cons, List.foldl_append, scanStep_eq]

theorem ensure_index_eq (env : Env) (dir : Pth) (walk : List (Pth × List Pth))
    (db : List DBImage) :
    ensure_index env dir walk db
      = ((finishScan env ((walkFiles env.excludeDirs walk).foldl (processFile env)
            ⟨flag_images_in_a_dir_as_deleted db dir, 0, [], [], []⟩)).db,
         (finishScan env ((walkFiles env.excludeDirs walk).foldl (processFile env)
            ⟨flag_images_in_a_dir_as_deleted db dir, 0, [], [], []⟩)).calls) := by
  rw [ensure_index, walk_foldl_eq]

theorem enqueueFile_untouched (env : Env) (st : ScanState) (fp : Pth)
    (meta : ImageMeta) {fp' : Pth} (hne : fp' ≠ fp) (hnb : fp' ∉ st.batch) :
    get_image (enqueueFile env st fp meta).db fp' = get_image st.db fp'
      ∧ fp' ∉ (enqueueFile env st fp meta).batch := by
  rw [enqueueFile]
  simp only
  split
  · rw [flushBatch]
    simp only
    constructor
    · apply indexFiles_untouched
      intro hmem
      rcases List.mem_append.1 hmem with h | h
      · exact hnb h
      · simp at h; exact hne h
    · simp
  · constructor
    · rfl
    · intro hmem
      rcases List.mem_append.1 hmem with h | h
      · exact hnb h
      · simp at h; exact hne h

theorem processFile_untouched (env : Env) (st : ScanState) (a : Pth) {fp : Pth}
    (hne : fp ≠ a) (hnb : fp ∉ st.batch) :
    get_image (processFile env st a).db fp = get_image st.db fp
      ∧ fp ∉ (processFile env st a).batch := by
  rw [processFile]
  cases hm : env.getMeta a with
  | none => exact ⟨rfl, hnb⟩
  | some meta =>
    simp only
    cases hi : get_image st.db a with
    | some rec =>
      simp only
      split
      · exact ⟨get_image_unflag_ne st.db hne, hnb⟩
      · exact enqueueFile_untouched env _ a meta hne hnb
    | none =>
      simp only
      exact enqueueFile_untouched env _ a meta hne hnb

theorem finishScan_untouched (env : Env) (st : ScanState) {fp : Pth}
    (hnb : fp ∉ st.batch) :
    get_image (finishScan env st).db fp = get_image st.db fp := by
  rw [finishScan]
  split
  · rw [flushBatch]
    exact indexFiles_untouched env st.db st.batch st.metas hnb
  · rfl

/-- Paths never observed by the walk are untouched by the whole pass
(relative to the initial optimistic flagging), for any environment. -/
theorem scan_untouched (env : Env) :
    ∀ (L : List Pth) (st : ScanState) (fp : Pth), fp ∉ L → fp ∉ st.batch →
      get_image (finishScan env (L.foldl (processFile env) st)).db fp
        = get_image st.db fp := by
  intro L
  induction L with
  | nil =>
    intro st fp _ hnb
    exact finishScan_untouched env st hnb
  | cons a rest ih =>
    intro st fp hnl hnb
    have hne : fp ≠ a := fun he => hnl (he ▸ List.mem_cons_self _ _)
    obtain ⟨hdb, hbatch⟩ := processFile_untouched env st a hne hnb
    rw [List.foldl_cons,
      ih (processFile env st a) fp (fun h => hnl (List.mem_cons_of_mem _ h)) hbatch,
      hdb]

theorem is_image_meta_equal_iff (rec : DBImage) (meta : ImageMeta) :
    is_image_meta_equal rec meta = true
      ↔ rec.modified_at = meta.modified_at ∧ rec.size = meta.size := by
  simp [is_image_meta_equal]

theorem enqueueFile_eq (env : Env) (st : ScanState) (fp : Pth) (meta : ImageMeta) :
    enqueueFile env st fp meta
      = if BATCH_SIZE ≤ (st.batch ++ [fp]).length then
          flushBatch env { st with batch := st.batch ++ [fp], metas := st.metas ++ [meta] }
        else { st with batch := st.batch ++ [fp], metas := st.metas ++ [meta] } := rfl

theorem processFile_eq_unflag (env : Env) (st : ScanState) (a : Pth)
    {rec : DBImage} {meta : ImageMeta}
    (hm : env.getMeta a = some meta) (hi : get_image st.db a = some rec)
    (he : is_image_meta_equal rec meta = true) :
    processFile env st a
      = { st with db := remove_deleted_flag st.db a,
                  images_processed := st.images_processed + 1 } := by
  rw [processFile, hm]
  simp only [hi, he, if_true]

theorem processFile_eq_enqueue_new (env : Env) (st : ScanState) (a : Pth)
    {meta : ImageMeta}
    (hm : env.getMeta a = some meta) (hi : get_image st.db a = none) :
    processFile env st a
      = enqueueFile env { st with images_processed := st.images_processed + 1 } a meta := by
  rw [processFile, hm]
  simp only [hi]

theorem processFile_eq_enqueue_stale (env : Env) (st : ScanState) (a : Pth)
    {rec : DBImage} {meta : ImageMeta}
    (hm : env.getMeta a = some meta) (hi : get_image st.db a = some rec)
    (he : is_image_meta_equal rec meta = false) :
    processFile env st a
      = enqueueFile env { st with images_processed := st.images_processed + 1 } a meta := by
  rw [processFile, hm]
  simp only [hi, he]
  rw [if_neg]
  simp [he]


theorem processFile_enqueue_form_new (env : Env) (st : ScanState) (a : Pth)
    {meta : ImageMeta}
    (hm : env.getMeta a = some meta) (hi : get_image st.db a = none) :
    processFile env st a
      = if BATCH_SIZE ≤ (st.batch ++ [a]).length then
          flushBatch env
            { st with
              images_processed := st.images_processed + 1,
              batch := st.batch ++ [a],
              metas := st.metas ++ [meta] }
        else
          { st with
            images_processed := st.images_processed + 1,
            batch := st.batch ++ [a],
            metas := st.metas ++ [meta] } := by
  rw [processFile_eq_enqueue_new env st a hm hi]
  rfl

theorem processFile_enqueue_form_stale (env : Env) (st : ScanState) (a : Pth)
    {rec : DBImage} {meta : ImageMeta}
    (hm : env.getMeta a = some meta) (hi : get_image st.db a = some rec)
    (he : is_image_meta_equal rec meta = false) :
    processFile env st a
      = if BATCH_SIZE ≤ (st.batch ++ [a]).length then
          flushBatch env
            { st with
              images_processed := st.images_processed + 1,
              batch := st.batch ++ [a],
              metas := st.metas ++ [meta] }
        else
          { st with
            images_processed := st.images_processed + 1,
            batch := st.batch ++ [a],
            metas := st.metas ++ [meta] } := by
  rw [processFile_eq_enqueue_stale env st a hm hi he]
  rfl

/-- Inductive step of the success characterisation when a stale file joins the
batch without triggering a flush. -/
theorem scan_grow_case (env : Env) (mfun : Pth → ImageMeta)
    (a : Pth) (L' : List Pth) (st : ScanState)
    (hndl : L'.Nodup) (hanl : a ∉ L') (hanb : a ∉ st.batch)
    (hnb : ∀ fp ∈ L', fp ∉ st.batch)
    (hbnd : st.batch.Nodup)
    (hmetas : st.metas = st.batch.map mfun)
    (hgood : ∀ fp, fp ∈ a :: L' ∨ fp ∈ st.batch →
      env.getMeta fp = some (mfun fp) ∧ ∃ i, env.openImage fp = some i)
    (hu : UniqueDB st.db)
    (ih : ∀ (st' : ScanState), L'.Nodup → (∀ fp ∈ L', fp ∉ st'.batch) →
      st'.batch.Nodup → st'.metas = st'.batch.map mfun →
      (∀ fp, fp ∈ L' ∨ fp ∈ st'.batch →
        env.getMeta fp = some (mfun fp) ∧ ∃ i, env.openImage fp = some i) →
      UniqueDB st'.db →
      (∀ fp, fp ∈ L' ∨ fp ∈ st'.batch →
        ∃ v, get_image (finishScan env (L'.foldl (processFile env) st')).db fp
          = some ⟨fp, (mfun fp).modified_at, (mfun fp).size, v, false⟩)
      ∧ UniqueDB (finishScan env (L'.foldl (processFile env) st')).db) :
    (∀ fp, fp ∈ a :: L' ∨ fp ∈ st.batch →
      ∃ v, get_image (finishScan env (L'.foldl (processFile env)
        { st with
          images_processed := st.images_processed + 1,
          batch := st.batch ++ [a],
          metas := st.metas ++ [mfun a] })).db fp
        = some ⟨fp, (mfun fp).modified_at, (mfun fp).size, v, false⟩)
    ∧ UniqueDB (finishScan env (L'.foldl (processFile env)
        { st with
          images_processed := st.images_processed + 1,
          batch := st.batch ++ [a],
          metas := st.metas ++ [mfun a] })).db := by
  obtain ⟨ihA, ihU⟩ := ih
    { st with
      images_processed := st.images_processed + 1,
      batch := st.batch ++ [a],
      metas := st.metas ++ [mfun a] }
    hndl
    (fun fp hfp hin => by
      rcases List.mem_append.1 hin with h | h
      · exact hnb fp hfp h
      · simp at h; subst h; exact hanl hfp)
    (by
      rw [List.nodup_append]
      refine ⟨hbnd, List.nodup_singleton _, ?_⟩
      intro x hx hxa
      simp at hxa; subst hxa; exact hanb hx)
    (by simp [hmetas])
    (fun fp hfp => hgood fp (by
      rcases hfp with h | h
      · exact Or.inl (List.mem_cons_of_mem _ h)
      · rcases List.mem_append.1 h with h1 | h1
        · exact Or.inr h1
        · simp at h1; subst h1; exact Or.inl (List.mem_cons_self _ _)))
    hu
  refine ⟨?_, ihU⟩
  intro fp hfp
  apply ihA
  rcases hfp with h | h
  · rcases List.mem_cons.1 h with h1 | h1
    · subst h1
      exact Or.inr (List.mem_append.2 (Or.inr (by simp)))
    · exact Or.inl h1
  · exact Or.inr (List.mem_append.2 (Or.inl h))

/-- Inductive step of the success characterisation when a stale file fills the
batch and triggers a flush. -/
theorem scan_flush_case (env : Env) (mfun : Pth → ImageMeta)
    (hemb : ∀ imgs, ∃ vs, env.embed imgs = some vs ∧ vs.length = imgs.length)
    (a : Pth) (L' : List Pth) (st : ScanState)
    (hndl : L'.Nodup) (hanl : a ∉ L') (hanb : a ∉ st.batch)
    (hnb : ∀ fp ∈ L', fp ∉ st.batch)
    (hbnd : st.batch.Nodup)
    (hmetas : st.metas = st.batch.map mfun)
    (hgood : ∀ fp, fp ∈ a :: L' ∨ fp ∈ st.batch →
      env.getMeta fp = some (mfun fp) ∧ ∃ i, env.openImage fp = some i)
    (hu : UniqueDB st.db)
    (ih : ∀ (st' : ScanState), L'.Nodup → (∀ fp ∈ L', fp ∉ st'.batch) →
      st'.batch.Nodup → st'.metas = st'.batch.map mfun →
      (∀ fp, fp ∈ L' ∨ fp ∈ st'.batch →
        env.getMeta fp = some (mfun fp) ∧ ∃ i, env.openImage fp = some i) →
      UniqueDB st'.db →
      (∀ fp, fp ∈ L' ∨ fp ∈ st'.batch →
        ∃ v, get_image (finishScan env (L'.foldl (processFile env) st')).db fp
          = some ⟨fp, (mfun fp).modified_at, (mfun fp).size, v, false⟩)
      ∧ UniqueDB (finishScan env (L'.foldl (processFile env) st')).db) :
    (∀ fp, fp ∈ a :: L' ∨ fp ∈ st.batch →
      ∃ v, get_image (finishScan env (L'.foldl (processFile env)
        (flushBatch env { st with
          images_processed := st.images_processed + 1,
          batch := st.batch ++ [a],
          metas := st.metas ++ [mfun a] }))).db fp
        = some ⟨fp, (mfun fp).modified_at, (mfun fp).size, v, false⟩)
    ∧ UniqueDB (finishScan env (L'.foldl (processFile env)
        (flushBatch env { st with
          images_processed := st.images_processed + 1,
          batch := st.batch ++ [a],
          metas := st.metas ++ [mfun a] }))).db := by
  have hbatchnd : (st.batch ++ [a]).Nodup := by
    rw [List.nodup_append]
    refine ⟨hbnd, List.nodup_singleton _, ?_⟩
    intro x hx hxa
    simp at hxa; subst hxa; exact hanb hx
  have hdec : ∀ p ∈ st.batch ++ [a], ∃ i, env.openImage p = some i := by
    intro p hp
    refine (hgood p ?_).2
    rcases List.mem_append.1 hp with h | h
    · exact Or.inr h
    · simp at h; subst h; exact Or.inl (List.mem_cons_self _ _)
  have hmetas' : st.metas ++ [mfun a] = (st.batch ++ [a]).map mfun := by
    simp [hmetas]
  have hfresh : ∀ fp ∈ st.batch ++ [a], ∃ v,
      get_image (indexFiles env st.db (st.batch ++ [a]) (st.metas ++ [mfun a])).1 fp
        = some ⟨fp, (mfun fp).modified_at, (mfun fp).size, v, false⟩ := by
    rw [hmetas']
    exact indexFiles_success_mem env st.db (st.batch ++ [a]) mfun hbatchnd hdec hemb
  have huD : UniqueDB (indexFiles env st.db (st.batch ++ [a]) (st.metas ++ [mfun a])).1 :=
    indexFiles_unique env _ _ hu
  obtain ⟨ihA, ihU⟩ := ih
    (flushBatch env { st with
      images_processed := st.images_processed + 1,
      batch := st.batch ++ [a],
      metas := st.metas ++ [mfun a] })
    hndl
    (fun fp _ hin => by simp [flushBatch] at hin)
    (by simp [flushBatch])
    (by simp [flushBatch])
    (fun fp hfp => hgood fp (by
      rcases hfp with h | h
      · exact Or.inl (List.mem_cons_of_mem _ h)
      · simp [flushBatch] at h))
    huD
  refine ⟨?_, ihU⟩
  intro fp hfp
  have hcases : fp ∈ L' ∨ (fp ∈ st.batch ++ [a] ∧ fp ∉ L') := by
    rcases hfp with h | h
    · rcases List.mem_cons.1 h with h1 | h1
      · subst h1
        exact Or.inr ⟨List.mem_append.2 (Or.inr (by simp)), hanl⟩
      · exact Or.inl h1
    · exact Or.inr ⟨List.mem_append.2 (Or.inl h), fun hin => hnb fp hin h⟩
  rcases hcases with h | ⟨h1, h2⟩
  · exact ihA fp (Or.inl h)
  · rw [scan_untouched env L'
      (flushBatch env { st with
        images_processed := st.images_processed + 1,
        batch := st.batch ++ [a],
        metas := st.metas ++ [mfun a] })
      fp h2 (by simp [flushBatch])]
    exact hfresh fp h1

/-- Core characterisation of a fully successful pass over the observed files
`L` (all metadata reads and decodes succeed, every batch model call succeeds
with one vector per image): every file of `L` (or still pending in the batch)
ends with a non-deleted record carrying exactly its filesystem observation,
and path uniqueness of the store is preserved. -/
theorem scan_success_chars (env : Env) (mfun : Pth → ImageMeta)
    (hemb : ∀ imgs, ∃ vs, env.embed imgs = some vs ∧ vs.length = imgs.length) :
    ∀ (L : List Pth) (st : ScanState),
      L.Nodup →
      (∀ fp ∈ L, fp ∉ st.batch) →
      st.batch.Nodup →
      st.metas = st.batch.map mfun →
      (∀ fp, fp ∈ L ∨ fp ∈ st.batch →
        env.getMeta fp = some (mfun fp) ∧ ∃ i, env.openImage fp = some i) →
      UniqueDB st.db →
      (∀ fp, fp ∈ L ∨ fp ∈ st.batch →
        ∃ v, get_image (finishScan env (L.foldl (processFile env) st)).db fp
          = some ⟨fp, (mfun fp).modified_at, (mfun fp).size, v, false⟩)
      ∧ UniqueDB (finishScan env (L.foldl (processFile env) st)).db := by
  intro L
  induction L with
  | nil =>
    intro st _ _ hbnd hmetas hgood hu
    rw [List.foldl_nil]
    constructor
    · intro fp hfp
      rcases hfp with h | h
      · simp at h
      · have hne : st.batch ≠ [] := by
          intro h0; rw [h0] at h; simp at h
        rw [finishScan, if_pos hne, flushBatch]
        simp only
        rw [hmetas]
        exact indexFiles_success_mem env st.db st.batch mfun hbnd
          (fun p hp => (hgood p (Or.inr hp)).2) hemb fp h
    · rw [finishScan]
      split
      · rw [flushBatch]
        exact indexFiles_unique env _ _ hu
      · exact hu
  | cons a L' ih =>
    intro st hnd hnb hbnd hmetas hgood hu
    have hma : env.getMeta a = some (mfun a) :=
      (hgood a (Or.inl (List.mem_cons_self _ _))).1
    have hanb : a ∉ st.batch := hnb a (List.mem_cons_self _ _)
    have hanl : a ∉ L' := (List.nodup_cons.1 hnd).1
    have hndl : L'.Nodup := (List.nodup_cons.1 hnd).2
    have hnb' : ∀ fp ∈ L', fp ∉ st.batch :=
      fun fp hfp => hnb fp (List.mem_cons_of_mem _ hfp)
    rw [List.foldl_cons]
    cases hia : get_image st.db a with
    | some rec =>
      by_cases heq : is_image_meta_equal rec (mfun a) = true
      · -- metadata unchanged: only the deleted flag is cleared
        rw [processFile_eq_unflag env st a hma hia heq]
        obtain ⟨ihA, ihU⟩ := ih
          { st with db := remove_deleted_flag st.db a,
                    images_processed := st.images_processed + 1 }
          hndl hnb' hbnd hmetas
          (fun fp hfp => hgood fp (by
            rcases hfp with h | h
            · exact Or.inl (List.mem_cons_of_mem _ h)
            · exact Or.inr h))
          (unique_unflag a hu)
        refine ⟨?_, ihU⟩
        intro fp hfp
        rcases hfp with h | h
        · rcases List.mem_cons.1 h with h1 | h1
          · subst h1
            rw [scan_untouched env L'
              { st with db := remove_deleted_flag st.db fp,
                        images_processed := st.images_processed + 1 }
              fp hanl hanb]
            simp only
            rw [get_image_unflag, hia]
            obtain ⟨hm1, hm2⟩ := (is_image_meta_equal_iff rec (mfun fp)).1 heq
            have hfpr := (get_image_mem hia).2
            refine ⟨rec.vector, ?_⟩
            simp only [Option.map_some']
            rw [if_pos hfpr]
            cases rec
            simp_all
          · exact ihA fp (Or.inl h1)
        · exact ihA fp (Or.inr h)
      · -- record present but stale: enqueued for re-embedding
        rw [processFile_enqueue_form_stale env st a hma hia (by simpa using heq)]
        by_cases hlen : BATCH_SIZE ≤ (st.batch ++ [a]).length
        · rw [if_pos hlen]
          exact scan_flush_case env mfun hemb a L' st hndl hanl hanb hnb' hbnd
            hmetas hgood hu ih
        · rw [if_neg hlen]
          exact scan_grow_case env mfun a L' st hndl hanl hanb hnb' hbnd
            hmetas hgood hu ih
    | none =>
      -- no prior record: enqueued for embedding
      rw [processFile_enqueue_form_new env st a hma hia]
      by_cases hlen : BATCH_SIZE ≤ (st.batch ++ [a]).length
      · rw [if_pos hlen]
        exact scan_flush_case env mfun hemb a L' st hndl hanl hanb hnb' hbnd
          hmetas hgood hu ih
      · rw [if_neg hlen]
        exact scan_grow_case env mfun a L' st hndl hanl hanb hnb' hbnd
          hmetas hgood hu ih

/-- Paths not observed by the walk keep exactly the state produced by the
initial optimistic flagging, whatever failures occur. -/
theorem ensure_index_untouched (env : Env) (dir : Pth)
    (walk : List (Pth × List Pth)) (db : List DBImage) (fp : Pth)
    (h : fp ∉ walkFiles env.excludeDirs walk) :
    get_image (ensure_index env dir walk db).1 fp
      = get_image (flag_images_in_a_dir_as_deleted db dir) fp := by
  rw [ensure_index_eq]
  exact scan_untouched env _ _ fp h (by simp)

/-- `ensure_index` under a fully successful environment: observed files end
non-deleted with their current filesystem observation; unobserved paths keep
the flagged state; uniqueness is preserved. -/
theorem ensure_index_success (env : Env) (mfun : Pth → ImageMeta)
    (dir : Pth) (walk : List (Pth × List Pth)) (db : List DBImage)
    (hemb : ∀ imgs, ∃ vs, env.embed imgs = some vs ∧ vs.length = imgs.length)
    (hnd : (walkFiles env.excludeDirs walk).Nodup)
    (hgood : ∀ fp ∈ walkFiles env.excludeDirs walk,
      env.getMeta fp = some (mfun fp) ∧ ∃ i, env.openImage fp = some i)
    (hu : UniqueDB db) :
    (∀ fp ∈ walkFiles env.excludeDirs walk,
      ∃ v, get_image (ensure_index env dir walk db).1 fp
        = some ⟨fp, (mfun fp).modified_at, (mfun fp).size, v, false⟩)
    ∧ UniqueDB (ensure_index env dir walk db).1 := by
  rw [ensure_index_eq]
  obtain ⟨hA, hU⟩ := scan_success_chars env mfun hemb (walkFiles env.excludeDirs walk)
    ⟨flag_images_in_a_dir_as_deleted db dir, 0, [], [], []⟩
    hnd (by simp) (by simp) (by simp)
    (fun fp hfp => by
      rcases hfp with h | h
      · exact hgood fp h
      · simp at h)
    (unique_flag dir hu)
  exact ⟨fun fp h => hA fp (Or.inl h), hU⟩

/-- A pass in which every observed file's stored metadata already equals the
current observation performs only unflag operations: no batch is ever formed,
hence no model call is made. -/
theorem scan_all_equal (env : Env) (mfun : Pth → ImageMeta) :
    ∀ (L : List Pth) (st : ScanState),
      st.batch = [] →
      (∀ fp ∈ L, env.getMeta fp = some (mfun fp) ∧
        ∃ rec, get_image st.db fp = some rec ∧
          rec.modified_at = (mfun fp).modified_at ∧ rec.size = (mfun fp).size) →
      L.foldl (processFile env) st
        = { st with db := L.foldl remove_deleted_flag st.db,
                    images_processed := st.images_processed + L.length } := by
  intro L
  induction L with
  | nil =>
    intro st _ _
    cases st
    simp
  | cons a L' ih =>
    intro st hb hgood
    obtain ⟨hma, rec, hrec, h1, h2⟩ := hgood a (List.mem_cons_self _ _)
    have heq : is_image_meta_equal rec (mfun a) = true :=
      (is_image_meta_equal_iff rec (mfun a)).2 ⟨h1, h2⟩
    rw [List.foldl_cons, processFile_eq_unflag env st a hma hrec heq]
    rw [ih _ (by simpa using hb) ?_]
    · cases st
      simp only [List.foldl_cons, List.length_cons]
      congr 1
      omega
    · intro fp hfp
      obtain ⟨hm, rec', hr', k1, k2⟩ := hgood fp (List.mem_cons_of_mem _ hfp)
      refine ⟨hm, ?_⟩
      simp only
      rw [get_image_unflag, hr']
      by_cases hfa : rec'.filepath = a
      · exact ⟨{ rec' with deleted := false }, by simp [hfa], k1, k2⟩
      · exact ⟨rec', by simp [hfa], k1, k2⟩

theorem remove_deleted_flag_eq_map (db : List DBImage) (fp : Pth) :
    remove_deleted_flag db fp
      = db.map fun r => if r.filepath = fp then { r with deleted := false } else r := by
  induction db with
  | nil => rfl
  | cons a rest ih => simp [remove_deleted_flag, ih]

theorem flag_eq_map (db : List DBImage) (dir : Pth) :
    flag_images_in_a_dir_as_deleted db dir
      = db.map fun r => if isUnder dir r.filepath then { r with deleted := true } else r := by
  induction db with
  | nil => rfl
  | cons a rest ih => simp [flag_images_in_a_dir_as_deleted, ih]

theorem map_id_of_mem {α : Type} {l : List α} {f : α → α}
    (h : ∀ x ∈ l, f x = x) : l.map f = l := by
  induction l with
  | nil => rfl
  | cons a rest ih =>
    rw [List.map_cons, h a (List.mem_cons_self _ _),
      ih fun x hx => h x (List.mem_cons_of_mem _ hx)]

theorem foldl_unflag_eq_map (L : List Pth) :
    ∀ db : List DBImage,
      L.foldl remove_deleted_flag db
        = db.map fun r => if r.filepath ∈ L then { r with deleted := false } else r := by
  induction L with
  | nil =>
    intro db
    simp only [List.foldl_nil, List.not_mem_nil, if_false]
    exact (map_id_of_mem fun x _ => rfl).symm
  | cons a L' ih =>
    intro db
    rw [List.foldl_cons, ih, remove_deleted_flag_eq_map, List.map_map]
    apply List.map_congr_left
    intro r _
    simp only [Function.comp]
    by_cases ha : r.filepath = a
    · by_cases hl : r.filepath ∈ L' <;>
        simp [ha, hl]
    · by_cases hl : r.filepath ∈ L' <;>
        simp [ha, hl]

theorem mem_flag_deleted {db : List DBImage} {dir : Pth} {r : DBImage}
    (hr : r ∈ flag_images_in_a_dir_as_deleted db dir)
    (hun : isUnder dir r.filepath = true) : r.deleted = true := by
  rw [flag_eq_map] at hr
  rcases List.mem_map.1 hr with ⟨r0, _, he⟩
  by_cases h0 : isUnder dir r0.filepath = true
  · rw [if_pos h0] at he
    rw [← he]
  · rw [if_neg h0] at he
    subst he
    exact absurd hun h0

theorem finishScan_of_nil (env : Env) (st : ScanState) (h : st.batch = []) :
    finishScan env st = st := by
  rw [finishScan, if_neg]
  simp [h]

/-- A second pass over a store in which every observed file already carries
its current metadata non-deleted, and every other record under the directory
is already flagged deleted, is a no-op: the store is returned unchanged and
no model call is made. -/
theorem ensure_index_noop (env : Env) (mfun : Pth → ImageMeta) (dir : Pth)
    (walk : List (Pth × List Pth)) (db1 : List DBImage)
    (hU : UniqueDB db1)
    (hobs : ∀ fp ∈ walkFiles env.excludeDirs walk,
      env.getMeta fp = some (mfun fp) ∧
        ∃ v, get_image db1 fp
          = some ⟨fp, (mfun fp).modified_at, (mfun fp).size, v, false⟩)
    (hflagged : ∀ r ∈ db1, isUnder dir r.filepath = true →
      r.filepath ∉ walkFiles env.excludeDirs walk → r.deleted = true) :
    ensure_index env dir walk db1 = (db1, []) := by
  rw [ensure_index_eq]
  rw [scan_all_equal env mfun (walkFiles env.excludeDirs walk)
    ⟨flag_images_in_a_dir_as_deleted db1 dir, 0, [], [], []⟩ rfl ?_]
  · rw [finishScan_of_nil env _ rfl]
    simp only
    refine Prod.ext ?_ rfl
    simp only
    rw [foldl_unflag_eq_map, flag_eq_map, List.map_map]
    apply map_id_of_mem
    intro r hr
    simp only [Function.comp]
    by_cases hun : isUnder dir r.filepath = true
    · rw [if_pos hun]
      simp only
      by_cases hl : r.filepath ∈ walkFiles env.excludeDirs walk
      · rw [if_pos hl]
        obtain ⟨v, hv⟩ := (hobs r.filepath hl).2
        rw [get_image_of_mem hU hr] at hv
        have hdel : r.deleted = false := by
          rw [Option.some.inj hv]
        cases r
        simp_all
      · rw [if_neg hl]
        have := hflagged r hr hun hl
        cases r
        simp_all
    · rw [if_neg hun]
      by_cases hl : r.filepath ∈ walkFiles env.excludeDirs walk
      · rw [if_pos hl]
        obtain ⟨v, hv⟩ := (hobs r.filepath hl).2
        rw [get_image_of_mem hU hr] at hv
        have hdel : r.deleted = false := by
          rw [Option.some.inj hv]
        cases r
        simp_all
      · rw [if_neg hl]
  · intro fp hfp
    obtain ⟨hm, v, hv⟩ := hobs fp hfp
    refine ⟨hm, ?_⟩
    simp only
    rw [get_image_flag, hv]
    by_cases hun : isUnder dir fp = true
    · refine ⟨⟨fp, (mfun fp).modified_at, (mfun fp).size, v, true⟩, ?_, rfl, rfl⟩
      simp [hun]
    · refine ⟨⟨fp, (mfun fp).modified_at, (mfun fp).size, v, false⟩, ?_, rfl, rfl⟩
      simp [hun]

/-! ### Regex characterisations -/

theorem dotPlusTail_cons₂ (c d : Char) (rest : List Char) :
    dotPlusTail (c :: d :: rest) = ((c != '\n') && dotPlusTail (d :: rest)) := rfl

theorem dotPlusTail_iff (s : List Char) :
    dotPlusTail s = true
      ↔ ∃ q nl, s = q ++ nl ∧ (∀ c ∈ q, c ≠ '\n') ∧ (nl = [] ∨ nl = ['\n']) := by
  induction s with
  | nil =>
    simp only [dotPlusTail, true_iff]
    exact ⟨[], [], rfl, by simp, Or.inl rfl⟩
  | cons c rest ih =>
    cases rest with
    | nil =>
      simp only [dotPlusTail, true_iff]
      by_cases hc : c = '\n'
      · subst hc
        exact ⟨[], ['\n'], rfl, by simp, Or.inr rfl⟩
      · exact ⟨[c], [], rfl, by simpa using hc, Or.inl rfl⟩
    | cons d rest' =>
      rw [dotPlusTail_cons₂]
      constructor
      · intro h
        rw [Bool.and_eq_true] at h
        obtain ⟨q, nl, he, hq, hnl⟩ := ih.1 h.2
        refine ⟨c :: q, nl, by rw [he]; rfl, ?_, hnl⟩
        intro x hx
        rcases List.mem_cons.1 hx with h1 | h1
        · subst h1; simpa using h.1
        · exact hq x h1
      · rintro ⟨q, nl, he, hq, hnl⟩
        cases q with
        | nil =>
          rcases hnl with h1 | h1 <;> (subst h1; simp at he)
        | cons c' q' =>
          rw [List.cons_append] at he
          injection he with he1 he2
          subst he1
          rw [Bool.and_eq_true]
          exact ⟨by simpa using hq c (List.mem_cons_self _ _),
            ih.2 ⟨q', nl, he2, fun x hx => hq x (List.mem_cons_of_mem _ hx), hnl⟩⟩

theorem dotPlusThenEnd_iff (s : List Char) :
    dotPlusThenEnd s = true
      ↔ ∃ q nl, s = q ++ nl ∧ q ≠ [] ∧ (∀ c ∈ q, c ≠ '\n')
          ∧ (nl = [] ∨ nl = ['\n']) := by
  cases s with
  | nil =>
    constructor
    · intro h
      simp [dotPlusThenEnd] at h
    · rintro ⟨q, nl, he, hne, _, _⟩
      exfalso
      rcases List.append_eq_nil.1 he.symm with ⟨h1, _⟩
      exact hne h1
  | cons c rest =>
    rw [dotPlusThenEnd, Bool.and_eq_true]
    constructor
    · rintro ⟨hc, ht⟩
      obtain ⟨q, nl, he, hq, hnl⟩ := (dotPlusTail_iff rest).1 ht
      refine ⟨c :: q, nl, by rw [he]; rfl, by simp, ?_, hnl⟩
      intro x hx
      rcases List.mem_cons.1 hx with h1 | h1
      · subst h1; simpa using hc
      · exact hq x h1
    · rintro ⟨q, nl, he, hne, hq, hnl⟩
      cases q with
      | nil => exact absurd rfl hne
      | cons c' q' =>
        rw [List.cons_append] at he
        injection he with he1 he2
        subst he1
        refine ⟨by simpa using hq c (List.mem_cons_self _ _), ?_⟩
        exact (dotPlusTail_iff rest).2
          ⟨q', nl, he2, fun x hx => hq x (List.mem_cons_of_mem _ hx), hnl⟩

theorem exclude_suffix_ok_iff (t : List Char) :
    exclude_suffix_ok t = true
      ↔ (t = [] ∨ t = ['\n']
          ∨ ∃ q nl, t = '/' :: (q ++ nl) ∧ q ≠ [] ∧ (∀ c ∈ q, c ≠ '\n')
              ∧ (nl = [] ∨ nl = ['\n'])) := by
  cases t with
  | nil => simp [exclude_suffix_ok]
  | cons c rest =>
    rw [exclude_suffix_ok, Bool.or_eq_true, Bool.and_eq_true, Bool.and_eq_true]
    constructor
    · rintro (⟨hc, hr⟩ | ⟨hc, hr⟩)
      · refine Or.inr (Or.inl ?_)
        have hc' : c = '\n' := by simpa using hc
        have hr' : rest = [] := by simpa using hr
        rw [hc', hr']
      · have hc' : c = '/' := by simpa using hc
        obtain ⟨q, nl, he, hne, hq, hnl⟩ := (dotPlusThenEnd_iff rest).1 hr
        exact Or.inr (Or.inr ⟨q, nl, by rw [hc', he], hne, hq, hnl⟩)
    · rintro (h | h | ⟨q, nl, he, hne, hq, hnl⟩)
      · simp at h
      · injection h with h1 h2
        subst h1; subst h2
        exact Or.inl ⟨by simp, by simp⟩
      · injection he with he1 he2
        subst he1
        refine Or.inr ⟨by simp, ?_⟩
        exact (dotPlusThenEnd_iff rest).2 ⟨q, nl, he2, hne, hq, hnl⟩

theorem isPrefixOf_iff_append (l : List Char) :
    ∀ s : List Char, l.isPrefixOf s = true ↔ ∃ t, s = l ++ t := by
  induction l with
  | nil =>
    intro s
    simp [List.isPrefixOf]
  | cons a l' ih =>
    intro s
    cases s with
    | nil =>
      constructor
      · intro h
        simp [List.isPrefixOf] at h
      · rintro ⟨t, ht⟩
        simp at ht
    | cons b s' =>
      rw [List.isPrefixOf, Bool.and_eq_true]
      constructor
      · rintro ⟨hab, hpre⟩
        have hab' : a = b := by simpa using hab
        obtain ⟨t, ht⟩ := (ih s').1 hpre
        exact ⟨t, by rw [hab', ht]; rfl⟩
      · rintro ⟨t, ht⟩
        rw [List.cons_append] at ht
        injection ht with h1 h2
        subst h1
        exact ⟨by simp, (ih s').2 ⟨t, h2⟩⟩

theorem nameTail_iff (names : List Pth) (s : List Char) :
    nameTail names s = true
      ↔ ∃ n ∈ names, ∃ t, s = n ++ t ∧ exclude_suffix_ok t = true := by
  rw [nameTail, List.any_eq_true]
  constructor
  · rintro ⟨n, hn, hb⟩
    rw [Bool.and_eq_true] at hb
    obtain ⟨t, ht⟩ := (isPrefixOf_iff_append n s).1 hb.1
    refine ⟨n, hn, t, ht, ?_⟩
    have : s.drop n.length = t := by rw [ht, List.drop_left]
    rw [← this]
    exact hb.2
  · rintro ⟨n, hn, t, ht, hok⟩
    refine ⟨n, hn, ?_⟩
    rw [Bool.and_eq_true]
    refine ⟨(isPrefixOf_iff_append n s).2 ⟨t, ht⟩, ?_⟩
    have : s.drop n.length = t := by rw [ht, List.drop_left]
    rw [this]
    exact hok

theorem slashNameSearch_iff (names : List Pth) :
    ∀ s : List Char, slashNameSearch names s = true
      ↔ ∃ p n t, s = p ++ '/' :: (n ++ t) ∧ (∀ c ∈ p, c ≠ '\n')
          ∧ n ∈ names ∧ exclude_suffix_ok t = true := by
  intro s
  induction s with
  | nil =>
    constructor
    · intro h
      simp [slashNameSearch] at h
    · rintro ⟨p, n, t, he, _, _, _⟩
      simp at he
  | cons c rest ih =>
    rw [slashNameSearch, Bool.and_eq_true, Bool.or_eq_true, Bool.and_eq_true]
    constructor
    · rintro ⟨hc, ⟨hsl, hnt⟩ | hs⟩
      · have hsl' : c = '/' := by simpa using hsl
        obtain ⟨n, hn, t, ht, hok⟩ := (nameTail_iff names rest).1 hnt
        exact ⟨[], n, t, by rw [hsl', ht]; rfl, by simp, hn, hok⟩
      · obtain ⟨p, n, t, he, hp, hn, hok⟩ := ih.1 hs
        refine ⟨c :: p, n, t, by rw [he]; rfl, ?_, hn, hok⟩
        intro x hx
        rcases List.mem_cons.1 hx with h1 | h1
        · subst h1; simpa using hc
        · exact hp x h1
    · rintro ⟨p, n, t, he, hp, hn, hok⟩
      cases p with
      | nil =>
        rw [List.nil_append] at he
        injection he with h1 h2
        subst h1
        refine ⟨by simp, Or.inl ⟨by simp, ?_⟩⟩
        exact (nameTail_iff names rest).2 ⟨n, hn, t, h2, hok⟩
      | cons c' p' =>
        rw [List.cons_append] at he
        injection he with h1 h2
        subst h1
        refine ⟨by simpa using hp c (List.mem_cons_self _ _), Or.inr ?_⟩
        exact ih.2 ⟨p', n, t, h2, fun x hx => hp x (List.mem_cons_of_mem _ hx), hn, hok⟩

/-- The exclusion regex matches exactly the strings of the shape
`p ++ "/" ++ name ++ tail` where `p` is a nonempty newline-free prefix,
`name` is one of the configured names, and `tail` is empty, a lone final
newline, or `"/" ++ q` with `q` nonempty and newline-free up to an optional
final newline. -/
theorem exclude_dir_match_iff (names : List Pth) (s : List Char) :
    exclude_dir_match names s = true
      ↔ ∃ p n t, s = p ++ '/' :: (n ++ t) ∧ p ≠ [] ∧ (∀ c ∈ p, c ≠ '\n')
          ∧ n ∈ names ∧ exclude_suffix_ok t = true := by
  cases s with
  | nil =>
    constructor
    · intro h
      simp [exclude_dir_match] at h
    · rintro ⟨p, n, t, he, hne, _, _, _⟩
      simp at he
  | cons c rest =>
    rw [exclude_dir_match, Bool.and_eq_true]
    constructor
    · rintro ⟨hc, hs⟩
      obtain ⟨p, n, t, he, hp, hn, hok⟩ := (slashNameSearch_iff names rest).1 hs
      refine ⟨c :: p, n, t, by rw [he]; rfl, by simp, ?_, hn, hok⟩
      intro x hx
      rcases List.mem_cons.1 hx with h1 | h1
      · subst h1; simpa using hc
      · exact hp x h1
    · rintro ⟨p, n, t, he, hne, hp, hn, hok⟩
      cases p with
      | nil => exact absurd rfl hne
      | cons c' p' =>
        rw [List.cons_append] at he
        injection he with h1 h2
        subst h1
        refine ⟨by simpa using hp c (List.mem_cons_self _ _), ?_⟩
        exact (slashNameSearch_iff names rest).2
          ⟨p', n, t, h2, fun x hx => hp x (List.mem_cons_of_mem _ hx), hn, hok⟩

theorem image_ext_tail_iff (t : List Char) :
    image_ext_tail t = true
      ↔ ∃ e nl, lowerStr t = '.' :: (e ++ nl) ∧ e ∈ IMAGE_EXTS
          ∧ (nl = [] ∨ nl = ['\n']) := by
  rw [image_ext_tail, List.any_eq_true]
  constructor
  · rintro ⟨e, he, hb⟩
    rw [Bool.or_eq_true] at hb
    rcases hb with h | h
    · exact ⟨e, [], by simpa using h, he, Or.inl rfl⟩
    · exact ⟨e, ['\n'], by simpa using h, he, Or.inr rfl⟩
  · rintro ⟨e, nl, heq, he, hnl⟩
    refine ⟨e, he, ?_⟩
    rw [Bool.or_eq_true]
    rcases hnl with h | h
    · subst h
      exact Or.inl (by simp [heq])
    · subst h
      exact Or.inr (by simp [heq])

theorem image_tail_search_iff :
    ∀ s : List Char, image_tail_search s = true
      ↔ ∃ p t, s = p ++ t ∧ p ≠ [] ∧ (∀ c ∈ p, c ≠ '\n')
          ∧ image_ext_tail t = true := by
  intro s
  induction s with
  | nil =>
    constructor
    · intro h
      simp [image_tail_search] at h
    · rintro ⟨p, t, he, hne, _, _⟩
      exfalso
      rcases List.append_eq_nil.1 he.symm with ⟨h1, _⟩
      exact hne h1
  | cons c rest ih =>
    rw [image_tail_search, Bool.and_eq_true, Bool.or_eq_true]
    constructor
    · rintro ⟨hc, h | h⟩
      · exact ⟨[c], rest, rfl, by simp, by simpa using hc, h⟩
      · obtain ⟨p, t, he, hne, hp, ht⟩ := ih.1 h
        refine ⟨c :: p, t, by rw [he]; rfl, by simp, ?_, ht⟩
        intro x hx
        rcases List.mem_cons.1 hx with h1 | h1
        · subst h1; simpa using hc
        · exact hp x h1
    · rintro ⟨p, t, he, hne, hp, ht⟩
      cases p with
      | nil => exact absurd rfl hne
      | cons c' p' =>
        rw [List.cons_append] at he
        injection he with h1 h2
        subst h1
        refine ⟨by simpa using hp c (List.mem_cons_self _ _), ?_⟩
        cases p' with
        | nil =>
          rw [List.nil_append] at h2
          exact Or.inl (h2 ▸ ht)
        | cons c'' p'' =>
          refine Or.inr (ih.2 ⟨c'' :: p'', t, h2, ?_, ?_, ht⟩)
          · simp
          · exact fun x hx => hp x (List.mem_cons_of_mem _ hx)

/-- The media-filename regex matches exactly the strings made of a nonempty
newline-free prefix followed by a dot and a case-insensitive `jpg`, `jpeg` or
`png`, ending there or with one final newline. -/
theorem image_regex_match_iff (s : List Char) :
    image_regex_match s = true
      ↔ ∃ p t, s = p ++ t ∧ p ≠ [] ∧ (∀ c ∈ p, c ≠ '\n')
          ∧ ∃ e nl, lowerStr t = '.' :: (e ++ nl) ∧ e ∈ IMAGE_EXTS
              ∧ (nl = [] ∨ nl = ['\n']) := by
  rw [image_regex_match, image_tail_search_iff]
  constructor
  · rintro ⟨p, t, he, hne, hp, ht⟩
    exact ⟨p, t, he, hne, hp, (image_ext_tail_iff t).1 ht⟩
  · rintro ⟨p, t, he, hne, hp, hext⟩
    exact ⟨p, t, he, hne, hp, (image_ext_tail_iff t).2 hext⟩

/-! ### Claim theorems -/

/-- C1: exhibit of the metadata misalignment in `_index_files`.  In the batch
`[a.png, b.png]` where `a.png` fails to decode, the surviving `b.png` is
upserted non-deleted but with `a.png`'s filesystem metadata `(1, 11)`,
although the observation for `b.png` is `(2, 22)`: the source zips the
filtered paths against the unfiltered metas, so after a decode failure the
non-deleted record for `b.png` does not match the observation that produced
its embedding, contradicting the claimed invariant. -/
theorem c1_metadata_misalignment :
    ensure_index envAB dirD walkAB [] = ([⟨bPath, 1, 11, [7], false⟩], [[bPath]])
    ∧ envAB.getMeta bPath = some ⟨2, 22⟩
    ∧ envAB.getMeta aPath = some ⟨1, 11⟩ := by
  refine ⟨by decide, by decide, by decide⟩

/-- C2: batch atomicity.  (1) In general, when the batch model call raises,
`_index_files` leaves the store exactly as it was — none of the batch's files
is upserted.  (2) Concretely, over nine stale files with the first batch
(`f0..f7`) failing: the two pre-existing records stay flagged deleted with
their old fields, the scan continues and the next batch (`f8`) is still
embedded and upserted.  (3) A subsequent fully successful scan recomputes all
eight abandoned files (and leaves `f8`, now unchanged, untouched). -/
theorem c2_batch_atomicity :
    (∀ (env : Env) (db : List DBImage) (fps : List Pth) (ms : List ImageMeta),
      env.embed (decodePass env fps).1 = none → (indexFiles env db fps ms).1 = db)
    ∧ ensure_index envFail dirD walkF dbF0 = (dbF1, [(List.range 8).map fPath, [fPath 8]])
    ∧ ensure_index envOk dirD walkF dbF1 = (dbF2, [(List.range 8).map fPath]) := by
  refine ⟨?_, by decide, by decide⟩
  intro env db fps ms h
  rw [indexFiles_embed_none env db fps ms h]

theorem c2_witness :
    envFail.embed (decodePass envFail [fPath 0]).1 = none
    ∧ (indexFiles envFail dbF0 [fPath 0] [⟨1, 1⟩]).1 = dbF0 :=
  ⟨by decide, c2_batch_atomicity.1 envFail dbF0 [fPath 0] [⟨1, 1⟩] (by decide)⟩

/-- C3 counterexample: `a.png` is observed by the walk (it is in the walked
files of a non-excluded root and matches the media filter), yet after the
pass its record under the directory still has `deleted = true`, because its
filesystem metadata read raised and the file was skipped.  The claimed
"deleted iff not observed" equivalence fails on the code. -/
theorem c3_counterexample :
    walkFiles envMetaFail.excludeDirs walkA = [aPath]
    ∧ isUnder dirD aPath = true
    ∧ ensure_index envMetaFail dirD walkA dbA = ([⟨aPath, 5, 6, [1], true⟩], []) := by
  refine ⟨by decide, by decide, by decide⟩

/-- C3 (amended): in a pass in which every observed file's metadata read and
decode succeed and every batch model call succeeds (one vector per image),
and the observed paths are distinct, a record under the directory ends with
`deleted = true` exactly when its path was not observed by the walk. -/
theorem c3_deleted_iff_unobserved (env : Env) (mfun : Pth → ImageMeta)
    (dir : Pth) (walk : List (Pth × List Pth)) (db : List DBImage)
    (hemb : ∀ imgs, ∃ vs, env.embed imgs = some vs ∧ vs.length = imgs.length)
    (hnd : (walkFiles env.excludeDirs walk).Nodup)
    (hgood : ∀ fp ∈ walkFiles env.excludeDirs walk,
      env.getMeta fp = some (mfun fp) ∧ ∃ i, env.openImage fp = some i)
    (hu : UniqueDB db) :
    ∀ r ∈ (ensure_index env dir walk db).1, isUnder dir r.filepath = true →
      (r.deleted = true ↔ r.filepath ∉ walkFiles env.excludeDirs walk) := by
  obtain ⟨hA, hU⟩ := ensure_index_success env mfun dir walk db hemb hnd hgood hu
  intro r hr hund
  constructor
  · intro hdel hin
    obtain ⟨v, hv⟩ := hA r.filepath hin
    rw [get_image_of_mem hU hr] at hv
    have hfalse : r.deleted = false := by rw [Option.some.inj hv]
    rw [hfalse] at hdel
    exact Bool.false_ne_true hdel
  · intro hnin
    have hut := ensure_index_untouched env dir walk db r.filepath hnin
    rw [get_image_of_mem hU hr] at hut
    exact mem_flag_deleted (get_image_mem hut.symm).1 hund

theorem c3_witness :
    (ensure_index envOk dirD walkA []).1 = [⟨aPath, 1, 1, [5], false⟩]
    ∧ (∀ r ∈ (ensure_index envOk dirD walkA []).1, isUnder dirD r.filepath = true →
        (r.deleted = true ↔ r.filepath ∉ walkFiles envOk.excludeDirs walkA)) :=
  ⟨by decide,
    c3_deleted_iff_unobserved envOk (fun _ => ⟨1, 1⟩) dirD walkA []
      (fun imgs => ⟨imgs.map fun _ => [5], rfl, by simp⟩)
      (by decide)
      (fun fp _ => ⟨rfl, fp, rfl⟩)
      (by simp [UniqueDB])⟩

/-- C4 counterexample: two consecutive passes with no filesystem change in
between (identical environment and walk).  The store state is identical after
the second run, yet the second pass still makes a model call — containing the
decoded image of the unchanged `b.png` — because the first pass stored
`a.png`'s metadata on `b.png`'s record (the C1 misalignment), so `b.png` is
judged stale again.  "No model call is made for any unchanged file" is false
as universally stated. -/
theorem c4_counterexample :
    (ensure_index envAB dirD walkAB (ensure_index envAB dirD walkAB []).1).2 = [[bPath]]
    ∧ (ensure_index envAB dirD walkAB (ensure_index envAB dirD walkAB []).1).1
        = (ensure_index envAB dirD walkAB []).1 := by
  refine ⟨by decide, by decide⟩

/-- C4 (amended): when the first pass is fully successful (metadata reads and
decodes succeed for every observed file, every batch model call succeeds with
one vector per image), the observed paths are distinct and the starting store
has unique paths, a second pass with no filesystem change returns the store
of the first pass unchanged and makes no model call; moreover after the first
pass every observed file's record is non-deleted with its current metadata. -/
theorem c4_idempotent (env : Env) (mfun : Pth → ImageMeta)
    (dir : Pth) (walk : List (Pth × List Pth)) (db0 : List DBImage)
    (hemb : ∀ imgs, ∃ vs, env.embed imgs = some vs ∧ vs.length = imgs.length)
    (hnd : (walkFiles env.excludeDirs walk).Nodup)
    (hgood : ∀ fp ∈ walkFiles env.excludeDirs walk,
      env.getMeta fp = some (mfun fp) ∧ ∃ i, env.openImage fp = some i)
    (hu : UniqueDB db0) :
    ensure_index env dir walk (ensure_index env dir walk db0).1
      = ((ensure_index env dir walk db0).1, [])
    ∧ ∀ fp ∈ walkFiles env.excludeDirs walk,
        ∃ v, get_image (ensure_index env dir walk db0).1 fp
          = some ⟨fp, (mfun fp).modified_at, (mfun fp).size, v, false⟩ := by
  obtain ⟨hA, hU⟩ := ensure_index_success env mfun dir walk db0 hemb hnd hgood hu
  refine ⟨?_, hA⟩
  apply ensure_index_noop env mfun dir walk _ hU
  · intro fp hfp
    exact ⟨(hgood fp hfp).1, hA fp hfp⟩
  · intro r hr hund hnin
    have hut := ensure_index_untouched env dir walk db0 r.filepath hnin
    rw [get_image_of_mem hU hr] at hut
    exact mem_flag_deleted (get_image_mem hut.symm).1 hund

theorem c4_witness :
    ensure_index envOk dirD walkA (ensure_index envOk dirD walkA []).1
      = ((ensure_index envOk dirD walkA []).1, [])
    ∧ ∀ fp ∈ walkFiles envOk.excludeDirs walkA,
        ∃ v, get_image (ensure_index envOk dirD walkA []).1 fp
          = some ⟨fp, (1 : Int), (1 : Int), v, false⟩ :=
  c4_idempotent envOk (fun _ => ⟨1, 1⟩) dirD walkA []
    (fun imgs => ⟨imgs.map fun _ => [5], rfl, by simp⟩)
    (by decide)
    (fun fp _ => ⟨rfl, fp, rfl⟩)
    (by simp [UniqueDB])

/-- C5 counterexample: `node_modules` is an exact path segment of
`node_modules/a.png` and one of the default exclusion names, yet the
exclusion check is false — the regex `^.+\/(names)(\/.+)?$` requires at least
one character before the slash, so a configured name in the first segment of
a path never matches.  The claimed "true iff some segment equals a configured
name" fails on the code. -/
theorem c5_counterexample :
    ("node_modules").toList ∈ EXCLUDE_DIRS_DEFAULT
    ∧ ("node_modules").toList ∈ pathSegs (("node_modules/a.png").toList)
    ∧ exclude_dir_match EXCLUDE_DIRS_DEFAULT (("node_modules/a.png").toList) = false := by
  refine ⟨by decide, by decide, by decide⟩

/-- C5 (amended): the exclusion check is true exactly when the path splits as
a nonempty newline-free prefix, a slash, a configured name, and a tail that
is empty, a lone final newline, or a slash followed by a nonempty
newline-free remainder (with an optional final newline) — i.e. a configured
name as an exact, non-initial path segment.  Files of a walk root matching
the check contribute nothing to the scan; paths never observed keep exactly
their flagged state; search never returns a path matching the check; and a
(necessarily nonempty) user-supplied exclusion list replaces the default. -/
theorem c5_exclusion :
    (∀ (names : List Pth) (s : List Char),
      exclude_dir_match names s = true
        ↔ ∃ p n t, s = p ++ '/' :: (n ++ t) ∧ p ≠ [] ∧ (∀ c ∈ p, c ≠ '\n')
            ∧ n ∈ names
            ∧ (t = [] ∨ t = ['\n']
                ∨ ∃ q nl, t = '/' :: (q ++ nl) ∧ q ≠ [] ∧ (∀ c ∈ q, c ≠ '\n')
                    ∧ (nl = [] ∨ nl = ['\n'])))
    ∧ (∀ (names : List Pth) (root : Pth) (files : List Pth),
        exclude_dir_match names root = true → filesOfRoot names root files = [])
    ∧ (∀ (env : Env) (dir : Pth) (walk : List (Pth × List Pth)) (db : List DBImage)
        (fp : Pth), fp ∉ walkFiles env.excludeDirs walk →
        get_image (ensure_index env dir walk db).1 fp
          = get_image (flag_images_in_a_dir_as_deleted db dir) fp)
    ∧ (∀ (env : Env) (db : List DBImage) (q dir : Pth) (k : Nat),
        ∀ res ∈ search env db q dir k,
          exclude_dir_match env.excludeDirs res.filepath = false)
    ∧ (∀ l : List Pth, l ≠ [] → effective_exclude_dirs (some l) = l) := by
  refine ⟨?_, ?_, ?_, ?_, ?_⟩
  · intro names s
    rw [exclude_dir_match_iff]
    simp only [exclude_suffix_ok_iff]
  · intro names root files h
    rw [filesOfRoot, if_pos h]
  · exact fun env dir walk db fp h => ensure_index_untouched env dir walk db fp h
  · intro env db q dir k res hres
    obtain ⟨th, hth, hview⟩ := List.mem_map.1 hres
    have hth' : th ∈ searchFiltered env db q dir :=
      (List.take_sublist _ _).subset hth
    have hf := (List.mem_filter.1 hth').2
    rw [← hview]
    simpa using hf
  · intro l hl
    simp [effective_exclude_dirs, hl]

theorem c5_witness :
    exclude_dir_match EXCLUDE_DIRS_DEFAULT (("a/node_modules/x.png").toList) = true
    ∧ effective_exclude_dirs (some [aName]) = [aName] :=
  ⟨by decide, c5_exclusion.2.2.2.2 [aName] (by decide)⟩

/-- C6 counterexample: when the root directory is missing or unreadable,
`os.walk` (with its default `onerror=None`) yields no entries at all, so
`ensure_index` runs over an empty walk: it completes normally, returning the
store with every record under the directory flagged deleted — it does not
fail, contrary to the claim's final clause. -/
theorem c6_counterexample :
    ensure_index envOk dirD [] dbA = ([⟨aPath, 5, 6, [1], true⟩], []) := by
  decide

/-- C6 (amended): a metadata read failure skips exactly that file (the scan
state is unchanged, so the walk and the pending batch continue); a decode
failure drops exactly that file from its batch; a whole-batch model failure
leaves the store untouched and the scan continues; and no filesystem
condition aborts the pass — an empty walk (what `os.walk` yields for a
missing or unreadable root) completes normally, returning the flagged store. -/
theorem c6_error_containment :
    (∀ (env : Env) (st : ScanState) (fp : Pth),
      env.getMeta fp = none → processFile env st fp = st)
    ∧ (∀ (env : Env) (l1 l2 : List Pth) (fp : Pth),
        env.openImage fp = none →
        decodePass env (l1 ++ fp :: l2) = decodePass env (l1 ++ l2))
    ∧ (∀ (env : Env) (db : List DBImage) (fps : List Pth) (ms : List ImageMeta),
        env.embed (decodePass env fps).1 = none → (indexFiles env db fps ms).1 = db)
    ∧ (∀ (env : Env) (dir : Pth) (db : List DBImage),
        ensure_index env dir [] db = (flag_images_in_a_dir_as_deleted db dir, [])) := by
  refine ⟨?_, ?_, ?_, ?_⟩
  · intro env st fp h
    rw [processFile, h]
  · intro env l1 l2 fp h
    exact decodePass_drop env l1 l2 h
  · intro env db fps ms h
    rw [indexFiles_embed_none env db fps ms h]
  · intro env dir db
    rfl

theorem c6_witness :
    envMetaFail.getMeta aPath = none
    ∧ processFile envMetaFail ⟨dbA, 0, [], [], []⟩ aPath = ⟨dbA, 0, [], [], []⟩ :=
  ⟨rfl, c6_error_containment.1 envMetaFail ⟨dbA, 0, [], [], []⟩ aPath rfl⟩

/-- C7: the staleness decision.  The metadata comparison is exact equality on
both fields (no tolerance); a file whose record exists with equal metadata is
not re-embedded — the only store change is clearing its deleted flag, with
every other field of the record retained; a file with no record, or whose
record differs on either field, is appended to the batch for re-embedding
(flushed once the batch is full). -/
theorem c7_staleness :
    (∀ (rec : DBImage) (meta : ImageMeta),
      is_image_meta_equal rec meta = true
        ↔ rec.modified_at = meta.modified_at ∧ rec.size = meta.size)
    ∧ (∀ (env : Env) (st : ScanState) (a : Pth) (rec : DBImage) (meta : ImageMeta),
        env.getMeta a = some meta → get_image st.db a = some rec →
        is_image_meta_equal rec meta = true →
        processFile env st a
          = { st with db := remove_deleted_flag st.db a,
                      images_processed := st.images_processed + 1 })
    ∧ (∀ (db : List DBImage) (fp : Pth) (r : DBImage),
        get_image db fp = some r →
        get_image (remove_deleted_flag db fp) fp = some { r with deleted := false })
    ∧ (∀ (env : Env) (st : ScanState) (a : Pth) (meta : ImageMeta),
        env.getMeta a = some meta → get_image st.db a = none →
        processFile env st a
          = if BATCH_SIZE ≤ (st.batch ++ [a]).length then
              flushBatch env
                { st with
                  images_processed := st.images_processed + 1,
                  batch := st.batch ++ [a],
                  metas := st.metas ++ [meta] }
            else
              { st with
                images_processed := st.images_processed + 1,
                batch := st.batch ++ [a],
                metas := st.metas ++ [meta] })
    ∧ (∀ (env : Env) (st : ScanState) (a : Pth) (rec : DBImage) (meta : ImageMeta),
        env.getMeta a = some meta → get_image st.db a = some rec →
        is_image_meta_equal rec meta = false →
        processFile env st a
          = if BATCH_SIZE ≤ (st.batch ++ [a]).length then
              flushBatch env
                { st with
                  images_processed := st.images_processed + 1,
                  batch := st.batch ++ [a],
                  metas := st.metas ++ [meta] }
            else
              { st with
                images_processed := st.images_processed + 1,
                batch := st.batch ++ [a],
                metas := st.metas ++ [meta] }) := by
  refine ⟨is_image_meta_equal_iff, ?_, ?_, ?_, ?_⟩
  · intro env st a rec meta hm hi he
    exact processFile_eq_unflag env st a hm hi he
  · intro db fp r h
    rw [get_image_unflag, h]
    simp [(get_image_mem h).2]
  · intro env st a meta hm hi
    exact processFile_enqueue_form_new env st a hm hi
  · intro env st a rec meta hm hi he
    exact processFile_enqueue_form_stale env st a hm hi he

theorem c7_witness :
    is_image_meta_equal ⟨aPath, 1, 1, [5], true⟩ ⟨1, 1⟩ = true
    ∧ (⟨aPath, 1, 1, [5], true⟩ : DBImage).modified_at = (⟨1, 1⟩ : ImageMeta).modified_at
    ∧ processFile envOk ⟨[⟨aPath, 1, 1, [5], true⟩], 0, [], [], []⟩ aPath
        = { db := remove_deleted_flag [⟨aPath, 1, 1, [5], true⟩] aPath,
            images_processed := 1, batch := [], metas := [], calls := [] } :=
  ⟨by decide, by decide,
    c7_staleness.2.1 envOk ⟨[⟨aPath, 1, 1, [5], true⟩], 0, [], [], []⟩ aPath
      ⟨aPath, 1, 1, [5], true⟩ ⟨1, 1⟩ rfl (by decide) (by decide)⟩

/-- C8: search preserves the model's similarity-descending order through
filtering and truncation.  The result is literally the first `top_k`
survivors of the exclusion filter applied to the model ranking, mapped to
`(filepath, score)`; its length is `min top_k survivors`; when `top_k` is at
least the number of survivors the result is all survivors (no padding, no
error); and — given the model contract that the ranking is descending — the
result is descending in score. -/
theorem c8_search_order (env : Env) (db : List DBImage) (q dir : Pth) (k : Nat)
    (hs : (env.rank (get_features db dir).2 q).Pairwise fun a b => b.1 ≤ a.1) :
    search env db q dir k
      = ((searchFiltered env db q dir).take k).map (searchView db dir)
    ∧ (search env db q dir k).length = min k (searchFiltered env db q dir).length
    ∧ ((searchFiltered env db q dir).length ≤ k →
        search env db q dir k = (searchFiltered env db q dir).map (searchView db dir))
    ∧ (search env db q dir k).Pairwise fun a b => b.score ≤ a.score := by
  have heq : search env db q dir k
      = ((searchFiltered env db q dir).take k).map (searchView db dir) := rfl
  refine ⟨heq, ?_, ?_, ?_⟩
  · rw [heq, List.length_map, List.length_take]
  · intro h
    rw [heq, List.take_of_length_le h]
  · rw [heq]
    apply List.pairwise_map.2
    apply List.Pairwise.imp
    · exact fun h => h
    · exact List.Pairwise.sublist (List.take_sublist _ _) (List.Pairwise.filter _ hs)

theorem c8_witness :
    search envRank db3 qq dirD 2 = [⟨pC, 95⟩, ⟨pA, 90⟩]
    ∧ (search envRank db3 qq dirD 2).Pairwise (fun a b => b.score ≤ a.score) :=
  ⟨by decide, (c8_search_order envRank db3 qq dirD 2 (by decide)).2.2.2⟩

/-- C9: search over a scope with no non-deleted records returns the empty
list (and, the model call being total on the empty matrix per its contract of
one ranked pair per row, no error arises anywhere in the pipeline). -/
theorem c9_empty_scope (env : Env) (db : List DBImage) (q dir : Pth) (k : Nat)
    (hdel : ∀ r ∈ db, isUnder dir r.filepath = true → r.deleted = true)
    (hrank : ∀ (feats : List Vec) (q' : Pth), (env.rank feats q').length = feats.length) :
    search env db q dir k = [] := by
  have hrows : get_image_vectors_by_dir_path db dir = [] := by
    rw [get_image_vectors_by_dir_path]
    rw [List.filter_eq_nil_iff.2]
    · rfl
    · intro r hr hcond
      rw [Bool.and_eq_true] at hcond
      have := hdel r hr hcond.1
      rw [this] at hcond
      simp at hcond
  have hfeats : (get_features db dir).2 = [] := by
    rw [get_features, hrows]
    rfl
  have hempty : env.rank (get_features db dir).2 q = [] := by
    apply List.length_eq_zero.1
    rw [hrank, hfeats]
    rfl
  have heq : search env db q dir k
      = ((searchFiltered env db q dir).take k).map (searchView db dir) := rfl
  rw [heq, searchFiltered, hempty]
  simp

theorem c9_witness :
    search envLen dbDel qq dirD 10 = [] :=
  c9_empty_scope envLen dbDel qq dirD 10 (by decide)
    (fun feats q' => by simp [envLen])

/-- C10 counterexample: the filename `"a\nb.png"` has characters before a
final dot followed by `png`, so the claim's acceptance condition holds — but
the regex rejects it, because `.` in the pattern `^.+\.(jpe?g|png)$` does not
match the embedded newline.  The claimed "iff" is therefore false on the
code. -/
theorem c10_counterexample :
    claimMediaAccept (("a\nb.png").toList) = true
    ∧ image_regex_match (("a\nb.png").toList) = false := by
  refine ⟨by decide, by decide⟩

/-- C10 (amended): the media filter accepts a filename exactly when it is a
nonempty newline-free prefix followed by a dot and a case-insensitive `jpg`,
`jpeg` or `png`, ending there or with one final newline (a Python `$` also
matches just before one trailing newline).  In particular a bare extension
such as `".jpg"` and a name whose extension is not final such as
`"a.png.bak"` are rejected, and a walk entry none of whose filenames pass
the filter contributes no file to the scan. -/
theorem c10_media_filter :
    (∀ s : List Char, image_regex_match s = true
      ↔ ∃ p t, s = p ++ t ∧ p ≠ [] ∧ (∀ c ∈ p, c ≠ '\n')
          ∧ ∃ e nl, lowerStr t = '.' :: (e ++ nl) ∧ e ∈ IMAGE_EXTS
              ∧ (nl = [] ∨ nl = ['\n']))
    ∧ image_regex_match ((".jpg").toList) = false
    ∧ image_regex_match (("a.png.bak").toList) = false
    ∧ (∀ (names : List Pth) (root : Pth) (files : List Pth),
        (∀ f ∈ files, image_regex_match f = false) →
        filesOfRoot names root files = []) := by
  refine ⟨image_regex_match_iff, by decide, by decide, ?_⟩
  intro names root files h
  rw [filesOfRoot]
  split
  · rfl
  · rw [List.filter_eq_nil_iff.2]
    · rfl
    · intro f hf hmatch
      rw [h f hf] at hmatch
      exact Bool.false_ne_true hmatch

theorem c10_witness :
    image_regex_match (("photo.JPG").toList) = true
    ∧ filesOfRoot EXCLUDE_DIRS_DEFAULT dirD [("notes.txt").toList] = [] :=
  ⟨by decide,
    c10_media_filter.2.2.2 EXCLUDE_DIRS_DEFAULT dirD [("notes.txt").toList] (by decide)⟩
